import Mathlib

/-!
Shallow embedding of the ServiceOpsAI tool-registry core:
`backend/core/tool_registry.py` (ToolRegistry), `backend/agents/tool_loader.py`
(DynamicToolLoader.parse_mcp_config and friends) and
`backend/core/mcp_server_manager.py` (MCPServerManager).

Python strings are modelled as `List Char`; Python dicts as insertion-ordered
association lists with key-overwriting insert (`upsert`), matching CPython
dict semantics (updating an existing key keeps its position).  Python object
construction (MCPTools / MultiMCPTools / local tool factories) is modelled by
drawing a fresh identifier from an allocation counter threaded through the
registry state, so "same object instance" is "same identifier".
-/

/-- Python strings as lists of characters. -/
abbrev Str := List Char

/-- Python `s.split(sep)` for a one-character separator: `"".split(":") = [""]`,
`"a:b".split(":") = ["a","b"]`, `":ab".split(":") = ["","ab"]`. -/
def splitOnChar (c : Char) : Str → List Str
  | [] => [[]]
  | x :: xs =>
    match splitOnChar c xs with
    | [] => [[x]]
    | r :: rs => if x = c then [] :: r :: rs else (x :: r) :: rs

/-- The `"mcp:"` reference tag (`tool_ref.startswith("mcp:")`). -/
def mcpTag : Str := ['m', 'c', 'p', ':']

/-- Python `ref.startswith("mcp:")`. -/
def startsWithMcp (s : Str) : Bool := mcpTag.isPrefixOf s

/-- Python dict lookup `d.get(k)` on an insertion-ordered association list. -/
def lookupKey (k : Str) : List (Str × α) → Option α
  | [] => none
  | (k', v) :: rest => if k' = k then some v else lookupKey k rest

/-- Python dict assignment `d[k] = v`: overwrite in place if the key exists
(keeping its position), else append at the end. -/
def upsert (k : Str) (v : α) : List (Str × α) → List (Str × α)
  | [] => [(k, v)]
  | (k', v') :: rest => if k' = k then (k, v) :: rest else (k', v') :: upsert k v rest

/-- A Python `env` dict: string keys to string values. -/
abbrev EnvMap := List (Str × Str)

/-- Python `d.update(e)`: write every key of `e` into `d`, last write wins. -/
def envUpdate (d e : EnvMap) : EnvMap := e.foldl (fun acc kv => upsert kv.1 kv.2 acc) d

/-- A value stored in a server/runtime configuration dict: the code only ever
stores strings (`"command"`, `"type"`), a nested env dict (`"env"`), or
`None` (a missing command) under these keys. -/
inductive CfgVal where
  | vstr (s : Str)
  | vmap (m : EnvMap)
  | vnone
  deriving DecidableEq

/-- A runtime/server configuration dict such as
`{"command": ..., "env": ..., "type": "stdio"}`. -/
abbrev Config := List (Str × CfgVal)

/-- Python truthiness of a dict: nonempty. -/
def cfgTruthy (c : Config) : Bool := !c.isEmpty

/-- Python truthiness of a string: nonempty. -/
def strTruthy (s : Str) : Bool := !s.isEmpty

/-- The dict key `"command"`. -/
def commandKey : Str := ['c', 'o', 'm', 'm', 'a', 'n', 'd']

/-- The dict key `"env"`. -/
def envKey : Str := ['e', 'n', 'v']

/-- The dict key `"type"`. -/
def typeKey : Str := ['t', 'y', 'p', 'e']

/-- The string `"stdio"`. -/
def stdioStr : Str := ['s', 't', 'd', 'i', 'o']

/-- Python `server_config.get("command")` (a string or absent/None). -/
def cfgCommand (c : Config) : Option Str :=
  match lookupKey commandKey c with
  | some (CfgVal.vstr s) => some s
  | _ => none

/-- Python `server_config.get("env", {})` (the code only stores dicts there). -/
def cfgEnv (c : Config) : EnvMap :=
  match lookupKey envKey c with
  | some (CfgVal.vmap m) => m
  | _ => []

/-- The `ToolType` enum from `tool_registry.py`. -/
inductive ToolType where
  | LOCAL
  | MCP
  deriving DecidableEq

/-- The `ToolMetadata` dataclass from `tool_registry.py`.  The `runtime_factory`
callable is modelled as an optional tag: invoking the factory constructs a
fresh instance carrying that tag. -/
structure ToolMetadata where
  name : Str
  type : ToolType
  server : Option Str := none
  runtime_factory : Option Str := none
  config : Config := []
  deriving DecidableEq

/-- A tool runtime object: a local tool instance, an `MCPTools(...)`, or a
`MultiMCPTools(...)`.  The `rid` field is the allocation identifier modelling
Python object identity. -/
inductive Runtime where
  | localInst (tag : Str) (rid : Nat)
  | mcpSingle (command : Option Str) (env : Option EnvMap)
      (includeTools : Option (List Str)) (rid : Nat)
  | mcpMulti (commands : List (Option Str)) (env : Option EnvMap)
      (includeTools : Option (List Str)) (rid : Nat)
  deriving DecidableEq

/-- The allocation identifier of a runtime object. -/
def Runtime.rid : Runtime → Nat
  | Runtime.localInst _ i => i
  | Runtime.mcpSingle _ _ _ i => i
  | Runtime.mcpMulti _ _ _ i => i

/-- The `ToolRegistry` state: `_tools` catalog, `_mcp_runtime_cache`, and the
allocation counter modelling object construction. -/
structure Registry where
  tools : List (Str × ToolMetadata) := []
  mcpRuntimeCache : List (Str × Runtime) := []
  nextId : Nat := 0
  deriving DecidableEq

/-- The registry as freshly constructed (`ToolRegistry.__init__`). -/
def emptyRegistry : Registry := {}

/-- Embedding of `ToolRegistry.register_local_tool`.  The factory callable is abstracted
as a tag. -/
def registerLocalTool (reg : Registry) (name : Str) (factoryTag : Str)
    (config : Config) : Registry :=
  let md : ToolMetadata :=
    { name := name, type := ToolType.LOCAL, runtime_factory := some factoryTag,
      config := config }
  { reg with tools := upsert name md reg.tools }

/-- The catalog key written by `register_mcp_tool`:
`f"mcp:{server}:{name}" if name else f"mcp:{server}"`. -/
def mcpToolKey (server : Str) (name : Option Str) : Str :=
  match name with
  | some n => if strTruthy n then mcpTag ++ server ++ ':' :: n else mcpTag ++ server
  | none => mcpTag ++ server

/-- The catalog value written by `register_mcp_tool`
(`name=name or server, type=MCP, server=server, config=config or {}`). -/
def mcpToolVal (server : Str) (name : Option Str) (config : Config) : ToolMetadata :=
  { name := match name with
      | some n => if strTruthy n then n else server
      | none => server,
    type := ToolType.MCP, server := some server, config := config }

/-- Embedding of `ToolRegistry.register_mcp_tool`. -/
def registerMcpTool (reg : Registry) (name : Option Str) (server : Str)
    (config : Config) : Registry :=
  { reg with tools := upsert (mcpToolKey server name) (mcpToolVal server name config) reg.tools }

/-- Embedding of `ToolRegistry.register_mcp_server_tools`: one entry per tool, then the
server-wide entry. -/
def registerMcpServerTools (reg : Registry) (server : Str) (toolNames : List Str)
    (config : Config) : Registry :=
  registerMcpTool (toolNames.foldl (fun r t => registerMcpTool r (some t) server config) reg)
    none server config

/-- Embedding of `ToolRegistry.clear_mcp_cache`. -/
def clearMcpCache (reg : Registry) : Registry := { reg with mcpRuntimeCache := [] }

/-- Embedding of `ToolRegistry.get_tool_metadata`. -/
def getToolMetadata (reg : Registry) (ref : Str) : Option ToolMetadata :=
  lookupKey ref reg.tools

/-- Embedding of `ToolRegistry.list_tools`. -/
def listTools (reg : Registry) (tt : Option ToolType) : List Str :=
  match tt with
  | some t => (reg.tools.filter (fun kv => kv.2.type = t)).map Prod.fst
  | none => reg.tools.map Prod.fst

/-- The test `tool_ref in self._tools and self._tools[tool_ref].type == ToolType.LOCAL`
at the head of `get_tool_runtime`. -/
def localHit (reg : Registry) (ref : Str) : Bool :=
  match lookupKey ref reg.tools with
  | some md => md.type = ToolType.LOCAL
  | none => false

/-- The part of `get_tool_runtime` (body held under `self._lock`) up to and
including the cache check at the head of `_get_mcp_runtime`:
`some (result, state)` when the call returns there (local tool, non-`mcp:`
reference, or cache hit), `none` on a cache miss (the call continues with
`getToolRuntimePhase2`). -/
def getToolRuntimePhase1 (reg : Registry) (ref : Str) : Option (Option Runtime × Registry) :=
  if localHit reg ref then
    match lookupKey ref reg.tools with
    | some md =>
      match md.runtime_factory with
      | some tag => some (some (Runtime.localInst tag reg.nextId),
          { reg with nextId := reg.nextId + 1 })
      | none => some (none, reg)
    | none => some (none, reg)
  else if startsWithMcp ref then
    match lookupKey ref reg.mcpRuntimeCache with
    | some r => some (some r, reg)
    | none => none
  else
    some (none, reg)

/-- One iteration of the catalog scan in `_get_mcp_runtime`: a matching entry
appends its truthy name to `server_tools` and overwrites `server_config` when
its config is truthy. -/
def scanStep (server : Str) (acc : List Str × Option Config) (kv : Str × ToolMetadata) :
    List Str × Option Config :=
  if kv.2.type = ToolType.MCP ∧ kv.2.server = some server then
    ((if strTruthy kv.2.name then acc.1 ++ [kv.2.name] else acc.1),
     (if cfgTruthy kv.2.config then some kv.2.config else acc.2))
  else acc

/-- The catalog scan in `_get_mcp_runtime`: collect the names of this server's
tools and the last truthy config seen (`server_tools` / `server_config`). -/
def scanServer (tools : List (Str × ToolMetadata)) (server : Str) :
    List Str × Option Config :=
  tools.foldl (scanStep server) ([], none)

/-- The rest of `_get_mcp_runtime` after a cache miss: parse the reference on
`":"`, scan the catalog for the server's config, construct an `MCPTools`
runtime, insert it into the cache under the raw reference string, return it. -/
def getToolRuntimePhase2 (reg : Registry) (ref : Str) : Option Runtime × Registry :=
  let parts := splitOnChar ':' ref
  if parts.length < 2 then (none, reg)
  else
    let server := parts.getD 1 []
    let specificTools : Option (List Str) :=
      if parts.length > 2 then some (parts.drop 2) else none
    match (scanServer reg.tools server).2 with
    | none => (none, reg)
    | some serverConfig =>
      let env := cfgEnv serverConfig
      let includeTools : Option (List Str) :=
        match specificTools with
        | some l => if l.isEmpty then none else some l
        | none => none
      let rt := Runtime.mcpSingle (cfgCommand serverConfig)
        (if env.isEmpty then none else some env) includeTools reg.nextId
      let reg' : Registry :=
        { reg with mcpRuntimeCache := upsert ref rt reg.mcpRuntimeCache,
                   nextId := reg.nextId + 1 }
      (some rt, reg')

/-- Embedding of `ToolRegistry.get_tool_runtime` (the whole body runs under `self._lock`):
local-tool handling, then `_get_mcp_runtime` = cache check + miss path. -/
def getToolRuntime (reg : Registry) (ref : Str) : Option Runtime × Registry :=
  match getToolRuntimePhase1 reg ref with
  | some out => out
  | none => getToolRuntimePhase2 reg ref

/-- An entry of the `servers` dict built by `_get_combined_mcp_runtime`:
`{"command": ..., "tools": ...}`. -/
structure ServerEntry where
  command : Option Str
  tools : Option (List Str)
  deriving DecidableEq

/-- The inner `for`/`break` of `_get_combined_mcp_runtime`: the first catalog
entry that is MCP-typed, names this server, and has a truthy config. -/
def findServerEntry (tools : List (Str × ToolMetadata)) (server : Str) :
    Option (Str × ToolMetadata) :=
  tools.find? (fun kv =>
    kv.2.type = ToolType.MCP ∧ kv.2.server = some server ∧ cfgTruthy kv.2.config)

/-- One iteration of the outer loop of `_get_combined_mcp_runtime`: parse the
reference, find the first catalog entry for its server (the inner
`for`/`break`), and if the server is not yet in `servers`, record its command
and filter and merge its env. -/
def combineStep (tools : List (Str × ToolMetadata))
    (acc : List (Str × ServerEntry) × EnvMap) (ref : Str) :
    List (Str × ServerEntry) × EnvMap :=
  let parts := splitOnChar ':' ref
  if parts.length < 2 then acc
  else
    let server := parts.getD 1 []
    let toolFilter : Option (List Str) :=
      if parts.length > 2 then some (splitOnChar ',' (parts.getD 2 [])) else none
    match findServerEntry tools server with
    | some kv =>
      if (lookupKey server acc.1).isSome then acc
      else (acc.1 ++ [(server, ⟨cfgCommand kv.2.config, toolFilter⟩)],
            envUpdate acc.2 (cfgEnv kv.2.config))
    | none => acc

/-- Embedding of `ToolRegistry._get_combined_mcp_runtime`: collect per-server command,
filter and env, then construct `MCPTools` (one server) or `MultiMCPTools`
(several).  Note: the connection cache is neither consulted nor written. -/
def getCombinedMcpRuntime (reg : Registry) (refs : List Str) : Option Runtime × Registry :=
  let collected := refs.foldl (combineStep reg.tools) ([], [])
  match collected.1 with
  | [] => (none, reg)
  | [entry] =>
    let rt := Runtime.mcpSingle entry.2.command
      (if collected.2.isEmpty then none else some collected.2) entry.2.tools reg.nextId
    (some rt, { reg with nextId := reg.nextId + 1 })
  | entries =>
    let commands := entries.map (fun kv => kv.2.command)
    let includeTools := entries.foldl (fun acc kv =>
      match kv.2.tools with
      | some ts => if ts.isEmpty then acc else acc ++ ts
      | none => acc) []
    let rt := Runtime.mcpMulti commands
      (if collected.2.isEmpty then none else some collected.2)
      (if includeTools.isEmpty then none else some includeTools) reg.nextId
    (some rt, { reg with nextId := reg.nextId + 1 })

/-- One iteration of the loop in `get_tools_for_agent`: collect `mcp:`
references, resolve everything else immediately. -/
def agentStep (acc : List Runtime × List Str × Registry) (ref : Str) :
    List Runtime × List Str × Registry :=
  if startsWithMcp ref then (acc.1, acc.2.1 ++ [ref], acc.2.2)
  else
    match getToolRuntime acc.2.2 ref with
    | (some t, reg') => (acc.1 ++ [t], acc.2.1, reg')
    | (none, reg') => (acc.1, acc.2.1, reg')

/-- Embedding of `ToolRegistry.get_tools_for_agent`: resolve local references in order,
collect `mcp:` references, then append the single combined MCP runtime (if
any) at the end. -/
def getToolsForAgent (reg : Registry) (toolRefs : List Str) : List Runtime × Registry :=
  let acc := toolRefs.foldl agentStep ([], [], reg)
  if acc.2.1.isEmpty then (acc.1, acc.2.2)
  else
    match getCombinedMcpRuntime acc.2.2 acc.2.1 with
    | (some m, reg') => (acc.1 ++ [m], reg')
    | (none, reg') => (acc.1, reg')

/-- Specification-side recursion for the claim about `get_tools_for_agent`:
resolve a list of references one after the other through `get_tool_runtime`,
keeping the successful results in order. -/
def resolveSeq (reg : Registry) : List Str → List Runtime × Registry
  | [] => ([], reg)
  | r :: rest =>
    match getToolRuntime reg r with
    | (some t, reg') =>
      let out := resolveSeq reg' rest
      (t :: out.1, out.2)
    | (none, reg') => resolveSeq reg' rest

/-- Python `s.strip()`: drop whitespace at both ends. -/
def stripWs (s : Str) : Str :=
  ((s.dropWhile Char.isWhitespace).reverse.dropWhile Char.isWhitespace).reverse

/-- Index of the first occurrence of a character (Python `s.index(c)`,
partialised to `Option`; the code only calls it after an `in` test). -/
def firstIdxOf (c : Char) : Str → Option Nat
  | [] => none
  | x :: xs => if x = c then some 0 else (firstIdxOf c xs).map (· + 1)

/-- Python `" ".join(parts)`. -/
def joinSpace : List Str → Str
  | [] => []
  | [s] => s
  | s :: rest => s ++ ' ' :: joinSpace rest

/-- A server entry of `mcp_config.yaml` (`mcp_servers.<name>`), as read by
both `DynamicToolLoader` and `MCPServerManager`: declared type, optional
launch command, optional argument list, env template.  `Option` on `command`
and `args` models Python's `"command" in server_config` key-presence tests. -/
structure ServerCfg where
  type : Option Str := none
  command : Option Str := none
  args : Option (List Str) := none
  env : EnvMap := []
  deriving DecidableEq

/-- The loader/manager configuration: the `mcp_servers` mapping. -/
structure LoaderConfig where
  mcpServers : List (Str × ServerCfg) := []
  deriving DecidableEq

/-- Embedding of `_resolve_env_vars` on a single string (identical in `tool_loader.py` and
`mcp_server_manager.py`): a value of the exact shape `${VAR}` is replaced by
the process environment variable `VAR` (empty string when unset); any other
string is left unchanged.  The process environment is the oracle `osenv`. -/
def resolveEnvStr (osenv : Str → Option Str) (s : Str) : Str :=
  if ['$', '{'].isPrefixOf s ∧ s.getLast? = some '}' then
    (osenv ((s.drop 2).dropLast)).getD []
  else s

/-- Embedding of `_resolve_env_vars` applied to an env dict: values resolved, keys kept. -/
def resolveEnvMap (osenv : Str → Option Str) (e : EnvMap) : EnvMap :=
  e.map (fun kv => (kv.1, resolveEnvStr osenv kv.2))

/-- Embedding of `build_mcp_command` (`tool_loader.py`) = `_build_command`
(`mcp_server_manager.py`): resolve env placeholders, concatenate the command
and its args with spaces; `None` when neither is present. -/
def buildCommand (osenv : Str → Option Str) (sc : ServerCfg) : Option Str :=
  let parts :=
    (match sc.command with
     | some c => [resolveEnvStr osenv c]
     | none => []) ++
    (match sc.args with
     | some l => l.map (resolveEnvStr osenv)
     | none => [])
  if parts.isEmpty then none else some (joinSpace parts)

/-- The bracket handling inside `parse_mcp_config` for one reference with the
`"mcp:"` tag already removed: when the text contains both `"["` and `"]"`,
slice out `server_name = c[:c.index("[")]` and split/strip the capability
list `c[c.index("[")+1:c.index("]")]`; otherwise the whole text is the
server name with no filter. -/
def parseBracketRef (c : Str) : Str × Option (List Str) :=
  if c.contains '[' ∧ c.contains ']' then
    let i := (firstIdxOf '[' c).getD 0
    let j := (firstIdxOf ']' c).getD 0
    let toolsStr := (c.take j).drop (i + 1)
    (c.take i, some ((splitOnChar ',' toolsStr).map stripWs))
  else (c, none)

/-- The result dict of `DynamicToolLoader.parse_mcp_config`. -/
structure ParsedMcp where
  commands : List Str := []
  env : EnvMap := []
  includeTools : Option (List Str) := none
  servers : List (Str × Option (List Str)) := []
  deriving DecidableEq

/-- One iteration of the loop in `parse_mcp_config`, also threading the
`all_include_tools` accumulator. -/
def parseMcpStep (osenv : Str → Option Str) (cfg : LoaderConfig)
    (acc : ParsedMcp × List Str) (ref : Str) : ParsedMcp × List Str :=
  if startsWithMcp ref then
    let c := ref.drop 4
    let parsed := parseBracketRef c
    let serverName := parsed.1
    let allInc := match parsed.2 with
      | some ts => acc.2 ++ ts
      | none => acc.2
    match lookupKey serverName cfg.mcpServers with
    | some sc =>
      if sc.type = some stdioStr then
        match buildCommand osenv sc with
        | some command =>
          let r : ParsedMcp :=
            { acc.1 with commands := acc.1.commands ++ [command],
                         servers := upsert serverName parsed.2 acc.1.servers,
                         env := envUpdate acc.1.env (resolveEnvMap osenv sc.env) }
          (r, allInc)
        | none => (acc.1, allInc)
      else (acc.1, allInc)
    | none => (acc.1, allInc)
  else acc

/-- Embedding of `DynamicToolLoader.parse_mcp_config`. -/
def parseMcpConfig (osenv : Str → Option Str) (cfg : LoaderConfig)
    (mcpConfigs : List Str) : ParsedMcp :=
  let acc := mcpConfigs.foldl (parseMcpStep osenv cfg) ({}, [])
  { acc.1 with includeTools := if acc.2.isEmpty then none else some acc.2 }

/-- The outcome of one server's discovery probe, an oracle standing for the
`MCPTools` connection in `discover_server_tools`: `some ts` means
`mcp.list_tools()` returned tools with these names, `none` means the
connection or listing raised (caught inside `discover_server_tools`). -/
abbrev ProbeOracle := Str → Option (List Str)

/-- A fault oracle for `initialize_server`: `true` means an unexpected
exception is raised inside that server's `try` body before discovery
(caught by its `except`, recorded as `False`). -/
abbrev FaultOracle := Str → Bool

/-- The `MCPServerManager` mutable state: the `initialized_servers` memo. -/
structure MgrState where
  initializedServers : List (Str × Bool) := []
  deriving DecidableEq

/-- Embedding of `MCPServerManager.discover_server_tools`: build the command (empty result
when there is none), probe the server, and swallow any probe error into an
empty capability list. -/
def discoverServerTools (osenv : Str → Option Str) (probe : ProbeOracle)
    (serverName : Str) (sc : ServerCfg) : List Str :=
  match buildCommand osenv sc with
  | none => []
  | some _ =>
    match probe serverName with
    | some ts => ts
    | none => []

/-- The `runtime_config = {"command": command, "env": env, "type": "stdio"}`
dict built in `initialize_server`. -/
def runtimeConfigOf (osenv : Str → Option Str) (sc : ServerCfg) : Config :=
  [(commandKey, match buildCommand osenv sc with
      | some c => CfgVal.vstr c
      | none => CfgVal.vnone),
   (envKey, CfgVal.vmap (resolveEnvMap osenv sc.env)),
   (typeKey, CfgVal.vstr stdioStr)]

/-- Embedding of `MCPServerManager.initialize_server`: memoised per-server initialization.
Returns the status plus the updated manager and registry states.  A server
absent from the configuration or of a non-`stdio` type returns `False`
without being recorded in the memo; an unexpected fault in the body records
`False`; otherwise tools are discovered and registered (a server-wide entry
only, when discovery produced nothing) and `True` is recorded. -/
def initializeServer (osenv : Str → Option Str) (probe : ProbeOracle)
    (fault : FaultOracle) (cfg : LoaderConfig) (ms : MgrState) (reg : Registry)
    (serverName : Str) : Bool × MgrState × Registry :=
  match lookupKey serverName ms.initializedServers with
  | some b => (b, ms, reg)
  | none =>
    match lookupKey serverName cfg.mcpServers with
    | none => (false, ms, reg)
    | some sc =>
      if sc.type ≠ some stdioStr then (false, ms, reg)
      else if fault serverName then
        let ms' : MgrState :=
          { ms with initializedServers := upsert serverName false ms.initializedServers }
        (false, ms', reg)
      else
        let runtimeConfig := runtimeConfigOf osenv sc
        let tools := discoverServerTools osenv probe serverName sc
        let reg' :=
          if !tools.isEmpty then registerMcpServerTools reg serverName tools runtimeConfig
          else registerMcpTool reg none serverName runtimeConfig
        let ms' : MgrState :=
          { ms with initializedServers := upsert serverName true ms.initializedServers }
        (true, ms', reg')

/-- Embedding of `MCPServerManager.initialize_all_servers`: initialize every configured
server and collect the per-server statuses in configuration order.  The
servers are launched concurrently with `asyncio.gather`, but each task only
touches its own server's entries, so the batch is modelled as the in-order
composition;`return_exceptions=True` never fires in the model because
`initialize_server` already catches its own faults. -/
def initializeAllServers (osenv : Str → Option Str) (probe : ProbeOracle)
    (fault : FaultOracle) (cfg : LoaderConfig) (ms : MgrState) (reg : Registry) :
    List (Str × Bool) × MgrState × Registry :=
  cfg.mcpServers.foldl (fun acc kv =>
    let r := initializeServer osenv probe fault cfg acc.2.1 acc.2.2 kv.1
    (acc.1 ++ [(kv.1, r.1)], r.2.1, r.2.2)) ([], ms, reg)

/-- Program counter of one task running `get_tool_runtime(ref)` in the
cooperative-scheduling model of §5: `ready` (not yet holding the lock),
`acquired` (holds `self._lock`, about to run the body up to the cache check),
`missed` (still holds the lock, cache check came back empty, about to run the
construct-and-insert part), `finished r` (returned `r`, lock released). -/
inductive TaskPc where
  | ready
  | acquired
  | missed
  | finished (r : Option Runtime)
  deriving DecidableEq

/-- One scheduler action: which task is stepped.  `acquire` takes the free
lock; `check` runs the body through the cache check; `construct` runs the
construct-and-insert part.  `check` and `construct` are separate actions, so
the model would admit an interleaving between the cache check and the insert
if the lock were released in between — it is not, which is what the
at-most-one-connection proof rests on. -/
inductive SchedAct where
  | acquire (i : Nat)
  | check (i : Nat)
  | construct (i : Nat)
  deriving DecidableEq

/-- Global state of `n` concurrent `get_tool_runtime(ref)` calls: the shared
registry, the owner of `self._lock`, and each task's program counter. -/
structure ConcSys where
  reg : Registry
  lockBy : Option Nat := none
  tasks : List TaskPc
  deriving DecidableEq

/-- One scheduling step.  Actions whose precondition does not hold (task not
at the right counter, lock busy or held by someone else) leave the state
unchanged — the scheduler may attempt them, the semantics just refuses. -/
def concStep (ref : Str) (s : ConcSys) : SchedAct → ConcSys
  | SchedAct.acquire i =>
    if s.lockBy = none ∧ s.tasks.getD i (TaskPc.finished none) = TaskPc.ready then
      { s with lockBy := some i, tasks := s.tasks.set i TaskPc.acquired }
    else s
  | SchedAct.check i =>
    if s.lockBy = some i ∧ s.tasks.getD i (TaskPc.finished none) = TaskPc.acquired then
      match getToolRuntimePhase1 s.reg ref with
      | some out =>
        { s with reg := out.2, lockBy := none,
                 tasks := s.tasks.set i (TaskPc.finished out.1) }
      | none => { s with tasks := s.tasks.set i TaskPc.missed }
    else s
  | SchedAct.construct i =>
    if s.lockBy = some i ∧ s.tasks.getD i (TaskPc.finished none) = TaskPc.missed then
      let out := getToolRuntimePhase2 s.reg ref
      { s with reg := out.2, lockBy := none,
               tasks := s.tasks.set i (TaskPc.finished out.1) }
    else s

/-- Run a whole schedule. -/
def concRun (ref : Str) (s : ConcSys) : List SchedAct → ConcSys
  | [] => s
  | a :: rest => concRun ref (concStep ref s a) rest

/-- Initial state for `n` concurrent `get_tool_runtime(ref)` calls. -/
def concInit (reg : Registry) (n : Nat) : ConcSys :=
  { reg := reg, tasks := List.replicate n TaskPc.ready }

/-- The sequence of catalog writes performed by one
`register_mcp_server_tools(server, toolNames, config)` call, in order. -/
def serverWrites (server : Str) (toolNames : List Str) (config : Config) :
    List (Str × ToolMetadata) :=
  toolNames.map (fun t => (mcpToolKey server (some t), mcpToolVal server (some t) config)) ++
  [(mcpToolKey server none, mcpToolVal server none config)]

/-- Apply a sequence of dict writes in order. -/
def applyWrites (ws l : List (Str × α)) : List (Str × α) :=
  ws.foldl (fun acc kv => upsert kv.1 kv.2 acc) l

/-- Concrete fixture: a truthy runtime config with launch command `"cmd"`. -/
def sampleCfg : Config := [(commandKey, CfgVal.vstr "cmd".toList)]

/-- Concrete fixture: provider `p` registered with capabilities `a`, `b`. -/
def sampleReg : Registry :=
  registerMcpServerTools emptyRegistry "p".toList ["a".toList, "b".toList] sampleCfg

/-- Concrete fixture: providers `p` (capabilities `a`, `b`) and `q`
(capability `c`) registered. -/
def sampleRegPQ : Registry :=
  registerMcpServerTools sampleReg "q".toList ["c".toList] sampleCfg

/-- Concrete fixture: an empty process environment. -/
def sampleOsenv : Str → Option Str := fun _ => none

/-- Concrete fixture: loader configuration declaring the stdio server `p`. -/
def sampleLoaderCfg : LoaderConfig :=
  { mcpServers := [("p".toList, { type := some stdioStr, command := some "cmd".toList })] }

/-- Concrete fixture: three configured stdio servers `A`, `B`, `C`. -/
def sampleLoaderCfg3 : LoaderConfig :=
  { mcpServers := [
      ("A".toList, { type := some stdioStr, command := some "ca".toList }),
      ("B".toList, { type := some stdioStr, command := some "cb".toList }),
      ("C".toList, { type := some stdioStr, command := some "cc".toList })] }

/-- Concrete fixture: a probe where `B`'s discovery always raises while `A`
and `C` list one capability each. -/
def sampleProbe3 : ProbeOracle := fun s =>
  if s = "B".toList then none
  else if s = "A".toList then some ["a1".toList]
  else some ["c1".toList]

/-- Concrete fixture: no unexpected faults. -/
def noFault : FaultOracle := fun _ => false

/-- Invariant of the `n`-task concurrent `get_tool_runtime(ref)` system used
in the at-most-one-connection proof: the lock marks exactly the tasks inside
the critical section, and the shared state is in one of two phases — before
any construction (the registry still `reg₀`, nobody finished) or after the
single construction (the one handle `h` cached under `ref`, the counter
advanced once, no task between check and construct, and every finished task
received `h`). -/
def ConcInv (reg₀ : Registry) (ref : Str) (h : Runtime) (s : ConcSys) : Prop :=
  (∀ i, s.lockBy = some i →
    s.tasks.getD i (TaskPc.finished none) = TaskPc.acquired ∨
    s.tasks.getD i (TaskPc.finished none) = TaskPc.missed) ∧
  (∀ i, (s.tasks.getD i (TaskPc.finished none) = TaskPc.acquired ∨
         s.tasks.getD i (TaskPc.finished none) = TaskPc.missed) → s.lockBy = some i) ∧
  ((s.reg = reg₀ ∧ ∀ pc ∈ s.tasks, ∀ r, pc ≠ TaskPc.finished r) ∨
   (s.reg = ⟨reg₀.tools, upsert ref h reg₀.mcpRuntimeCache, reg₀.nextId + 1⟩ ∧
    (∀ pc ∈ s.tasks, pc ≠ TaskPc.missed) ∧
    (∀ pc ∈ s.tasks, ∀ r, pc = TaskPc.finished r → r = some h)))

/-! Section: Generic dictionary lemmas -/

theorem lookupKey_upsert_self (k : Str) (v : α) (l : List (Str × α)) :
    lookupKey k (upsert k v l) = some v := by
  induction l with
  | nil => simp [upsert, lookupKey]
  | cons hd tl ih =>
    obtain ⟨k', v'⟩ := hd
    by_cases h : k' = k <;> simp [upsert, lookupKey, h, ih]

theorem lookupKey_upsert_ne {k k' : Str} (hne : k ≠ k') (v : α) (l : List (Str × α)) :
    lookupKey k (upsert k' v l) = lookupKey k l := by
  induction l with
  | nil => simp [upsert, lookupKey, Ne.symm hne]
  | cons hd tl ih =>
    obtain ⟨k'', v''⟩ := hd
    by_cases h : k'' = k'
    · subst h
      simp [upsert, lookupKey, Ne.symm hne]
    · by_cases h2 : k'' = k <;> simp [upsert, lookupKey, h, h2, ih, hne]

theorem upsert_of_lookup_eq {k : Str} {v : α} {l : List (Str × α)}
    (h : lookupKey k l = some v) : upsert k v l = l := by
  induction l with
  | nil => simp [lookupKey] at h
  | cons hd tl ih =>
    obtain ⟨k', v'⟩ := hd
    by_cases hk : k' = k
    · subst hk
      simp [lookupKey] at h
      simp [upsert, h]
    · simp [lookupKey, hk] at h
      simp [upsert, hk, ih h]

theorem applyWrites_nil (l : List (Str × α)) : applyWrites [] l = l := rfl

theorem applyWrites_cons (k : Str) (v : α) (ws l : List (Str × α)) :
    applyWrites ((k, v) :: ws) l = applyWrites ws (upsert k v l) := rfl

theorem lookupKey_applyWrites_notMem {k : Str} {ws : List (Str × α)}
    (hk : k ∉ ws.map Prod.fst) (l : List (Str × α)) :
    lookupKey k (applyWrites ws l) = lookupKey k l := by
  induction ws generalizing l with
  | nil => rfl
  | cons w tl ih =>
    obtain ⟨k', v'⟩ := w
    simp only [List.map_cons, List.mem_cons] at hk
    push_neg at hk
    rw [applyWrites_cons, ih hk.2, lookupKey_upsert_ne hk.1]

theorem lookupKey_applyWrites_mem {k : Str} {v : α} {ws : List (Str × α)}
    (hco : ∀ p q, p ∈ ws → q ∈ ws → p.1 = q.1 → p.2 = q.2)
    (hmem : (k, v) ∈ ws) (l : List (Str × α)) :
    lookupKey k (applyWrites ws l) = some v := by
  induction ws generalizing l with
  | nil => simp at hmem
  | cons w tl ih =>
    obtain ⟨k', v'⟩ := w
    rcases List.mem_cons.mp hmem with h | h
    · injection h with hk hv
      subst k'; subst v'
      rw [applyWrites_cons]
      by_cases hmem2 : k ∈ tl.map Prod.fst
      · rcases List.mem_map.mp hmem2 with ⟨⟨k2, v2⟩, hp, he⟩
        dsimp only at he
        subst k2
        have hv2 : v2 = v := by
          have := hco (k, v2) (k, v) (List.mem_cons_of_mem _ hp) (List.mem_cons_self _ _) rfl
          simpa using this
        subst hv2
        exact ih (fun p q hp' hq' => hco p q (List.mem_cons_of_mem _ hp')
          (List.mem_cons_of_mem _ hq')) hp _
      · rw [lookupKey_applyWrites_notMem hmem2, lookupKey_upsert_self]
    · rw [applyWrites_cons]
      exact ih (fun p q hp' hq' => hco p q (List.mem_cons_of_mem _ hp')
        (List.mem_cons_of_mem _ hq')) h _

theorem applyWrites_of_lookup {ws l : List (Str × α)}
    (h : ∀ p ∈ ws, lookupKey p.1 l = some p.2) : applyWrites ws l = l := by
  induction ws with
  | nil => rfl
  | cons w tl ih =>
    obtain ⟨k, v⟩ := w
    rw [applyWrites_cons, upsert_of_lookup_eq (h (k, v) (List.mem_cons_self _ _))]
    exact ih (fun p hp => h p (List.mem_cons_of_mem _ hp))

theorem applyWrites_idem {ws : List (Str × α)}
    (hco : ∀ p q, p ∈ ws → q ∈ ws → p.1 = q.1 → p.2 = q.2) (l : List (Str × α)) :
    applyWrites ws (applyWrites ws l) = applyWrites ws l :=
  applyWrites_of_lookup (fun p hp => by
    obtain ⟨k, v⟩ := p
    exact lookupKey_applyWrites_mem hco hp l)

theorem mem_keys_upsert {x k : Str} {v : α} {l : List (Str × α)}
    (h : x ∈ (upsert k v l).map Prod.fst) : x = k ∨ x ∈ l.map Prod.fst := by
  induction l with
  | nil =>
    simp only [upsert, List.map_cons, List.map_nil, List.mem_singleton] at h
    exact Or.inl h
  | cons hd tl ih =>
    obtain ⟨k', v'⟩ := hd
    simp only [List.map_cons, List.mem_cons]
    by_cases hk : k' = k
    · subst hk
      simp only [upsert, eq_self_iff_true, if_true, List.map_cons, List.mem_cons] at h
      tauto
    · simp only [upsert, if_neg hk, List.map_cons, List.mem_cons] at h
      rcases h with h1 | h1
      · tauto
      · rcases ih h1 with h2 | h2 <;> tauto

theorem nodup_keys_upsert {k : Str} {v : α} {l : List (Str × α)}
    (h : (l.map Prod.fst).Nodup) : ((upsert k v l).map Prod.fst).Nodup := by
  induction l with
  | nil => simp [upsert]
  | cons hd tl ih =>
    obtain ⟨k', v'⟩ := hd
    simp only [List.map_cons, List.nodup_cons] at h
    by_cases hk : k' = k
    · subst hk
      simp only [upsert, eq_self_iff_true, if_true, List.map_cons, List.nodup_cons]
      exact h
    · simp only [upsert, if_neg hk, List.map_cons, List.nodup_cons]
      refine ⟨fun hmem => ?_, ih h.2⟩
      rcases mem_keys_upsert hmem with rfl | hmem2
      · exact hk rfl
      · exact h.1 hmem2

theorem nodup_keys_applyWrites {ws : List (Str × α)} (l : List (Str × α))
    (h : (l.map Prod.fst).Nodup) : ((applyWrites ws l).map Prod.fst).Nodup := by
  induction ws generalizing l with
  | nil => exact h
  | cons w tl ih =>
    obtain ⟨k, v⟩ := w
    rw [applyWrites_cons]
    exact ih _ (nodup_keys_upsert h)

/-! Section: Catalog registration lemmas -/

theorem foldl_registerMcpTool (s : Str) (cfg : Config) (ts : List Str) (reg : Registry) :
    ts.foldl (fun r t => registerMcpTool r (some t) s cfg) reg =
      ⟨applyWrites (ts.map fun t => (mcpToolKey s (some t), mcpToolVal s (some t) cfg)) reg.tools, reg.mcpRuntimeCache, reg.nextId⟩ := by
  induction ts generalizing reg with
  | nil => rfl
  | cons t tl ih =>
    simp only [List.foldl_cons, List.map_cons, applyWrites_cons]
    rw [ih]
    rfl

theorem registerMcpServerTools_eq (reg : Registry) (s : Str) (ts : List Str) (cfg : Config) :
    registerMcpServerTools reg s ts cfg =
      ⟨applyWrites (serverWrites s ts cfg) reg.tools, reg.mcpRuntimeCache, reg.nextId⟩ := by
  unfold registerMcpServerTools serverWrites
  rw [foldl_registerMcpTool]
  simp [registerMcpTool, applyWrites, List.foldl_append]

theorem mcpToolKeyVal_coherent (s : Str) (cfg : Config) (n1 n2 : Option Str)
    (hk : mcpToolKey s n1 = mcpToolKey s n2) :
    mcpToolVal s n1 cfg = mcpToolVal s n2 cfg := by
  have hlen : ∀ (t : Str), ¬ (mcpTag ++ s = mcpTag ++ s ++ ':' :: t) := by
    intro t h
    have := congrArg List.length h
    simp [List.length_append] at this
  rcases n1 with _ | t1 <;> rcases n2 with _ | t2
  · rfl
  · by_cases h2 : strTruthy t2
    · simp only [mcpToolKey, h2, if_true] at hk
      exact absurd hk (hlen t2)
    · simp only [mcpToolVal, h2, if_neg]
      simp [h2]
  · by_cases h1 : strTruthy t1
    · simp only [mcpToolKey, h1, if_true] at hk
      exact absurd hk.symm (hlen t1)
    · simp [mcpToolVal, h1]
  · by_cases h1 : strTruthy t1 <;> by_cases h2 : strTruthy t2
    · simp only [mcpToolKey, h1, h2, if_true] at hk
      have h3 : s ++ ':' :: t1 = s ++ ':' :: t2 := by
        have := List.append_cancel_left (List.append_assoc mcpTag s (':' :: t1) ▸
          List.append_assoc mcpTag s (':' :: t2) ▸ hk)
        exact this
      have h4 : t1 = t2 := by
        have := List.append_cancel_left h3
        injection this
      rw [h4]
    · simp only [mcpToolKey, h1, h2, if_true, if_neg] at hk
      exact absurd hk.symm (hlen t1)
    · simp only [mcpToolKey, h1, h2, if_true, if_neg] at hk
      exact absurd hk (hlen t2)
    · simp [mcpToolVal, h1, h2]

theorem serverWrites_mem {s : Str} {ts : List Str} {cfg : Config} {p : Str × ToolMetadata}
    (hp : p ∈ serverWrites s ts cfg) :
    ∃ n : Option Str, p = (mcpToolKey s n, mcpToolVal s n cfg) := by
  unfold serverWrites at hp
  rcases List.mem_append.mp hp with h | h
  · rcases List.mem_map.mp h with ⟨t, _, he⟩
    exact ⟨some t, he.symm⟩
  · exact ⟨none, List.mem_singleton.mp h⟩

theorem serverWrites_coherent (s : Str) (ts : List Str) (cfg : Config) :
    ∀ p q, p ∈ serverWrites s ts cfg → q ∈ serverWrites s ts cfg → p.1 = q.1 → p.2 = q.2 := by
  intro p q hp hq hk
  rcases serverWrites_mem hp with ⟨n1, rfl⟩
  rcases serverWrites_mem hq with ⟨n2, rfl⟩
  exact mcpToolKeyVal_coherent s cfg n1 n2 hk

/-- C6: for every provider name, capability list, and config, calling
`register_mcp_server_tools` twice leaves the catalog in the same state as
calling it once: one entry per capability keyed `mcp:{provider}:{capability}`
plus exactly one unrestricted server-wide entry keyed `mcp:{provider}`, with
no duplicate keys and the last write winning for overlapping keys. -/
theorem c6_register_server_idempotent (reg : Registry) (s : Str) (ts : List Str)
    (cfg : Config) (hnd : (reg.tools.map Prod.fst).Nodup) :
    registerMcpServerTools (registerMcpServerTools reg s ts cfg) s ts cfg =
      registerMcpServerTools reg s ts cfg ∧
    lookupKey (mcpToolKey s none) (registerMcpServerTools reg s ts cfg).tools =
      some (mcpToolVal s none cfg) ∧
    (∀ t ∈ ts, lookupKey (mcpToolKey s (some t)) (registerMcpServerTools reg s ts cfg).tools =
      some (mcpToolVal s (some t) cfg)) ∧
    ((registerMcpServerTools reg s ts cfg).tools.map Prod.fst).Nodup := by
  have hrepr := registerMcpServerTools_eq reg s ts cfg
  have hco := serverWrites_coherent s ts cfg
  refine ⟨?_, ?_, ?_, ?_⟩
  · rw [hrepr, registerMcpServerTools_eq]
    simp only [Registry.mk.injEq]
    exact ⟨applyWrites_idem hco reg.tools, trivial, trivial⟩
  · rw [hrepr]
    refine lookupKey_applyWrites_mem hco ?_ reg.tools
    unfold serverWrites
    exact List.mem_append.mpr (Or.inr (List.mem_singleton.mpr rfl))
  · intro t ht
    rw [hrepr]
    refine lookupKey_applyWrites_mem hco ?_ reg.tools
    unfold serverWrites
    exact List.mem_append.mpr (Or.inl (List.mem_map.mpr ⟨t, ht, rfl⟩))
  · rw [hrepr]
    exact nodup_keys_applyWrites reg.tools hnd

/-- Witness for C6 at a concrete input: the empty registry has duplicate-free
keys, and registering provider `p` with capability `a` twice equals doing so
once. -/
theorem c6_register_server_idempotent_witness :
    ((emptyRegistry.tools.map Prod.fst).Nodup) ∧
    registerMcpServerTools (registerMcpServerTools emptyRegistry "p".toList ["a".toList] sampleCfg)
        "p".toList ["a".toList] sampleCfg =
      registerMcpServerTools emptyRegistry "p".toList ["a".toList] sampleCfg :=
  ⟨by decide,
   (c6_register_server_idempotent emptyRegistry "p".toList ["a".toList] sampleCfg (by decide)).1⟩

/-! Section: Resolve-path lemmas -/

theorem phase2_cases (reg : Registry) (ref : Str) :
    ((getToolRuntimePhase2 reg ref).1 = none ∧ (getToolRuntimePhase2 reg ref).2 = reg) ∨
    (∃ h : Runtime, (getToolRuntimePhase2 reg ref).1 = some h ∧ h.rid = reg.nextId ∧
      (getToolRuntimePhase2 reg ref).2 =
        ⟨reg.tools, upsert ref h reg.mcpRuntimeCache, reg.nextId + 1⟩) := by
  unfold getToolRuntimePhase2
  dsimp only
  split
  · exact Or.inl ⟨rfl, rfl⟩
  · split
    · exact Or.inl ⟨rfl, rfl⟩
    · exact Or.inr ⟨_, rfl, rfl, rfl⟩

theorem phase2_some_spec {reg : Registry} {ref : Str} {h : Runtime}
    (hh : (getToolRuntimePhase2 reg ref).1 = some h) :
    h.rid = reg.nextId ∧
    (getToolRuntimePhase2 reg ref).2 =
      ⟨reg.tools, upsert ref h reg.mcpRuntimeCache, reg.nextId + 1⟩ := by
  rcases phase2_cases reg ref with ⟨h1, _⟩ | ⟨h', h1, h2, h3⟩
  · rw [hh] at h1
    cases h1
  · rw [hh] at h1
    injection h1 with he
    subst he
    exact ⟨h2, h3⟩

theorem phase2_none_frame {reg : Registry} {ref : Str}
    (hh : (getToolRuntimePhase2 reg ref).1 = none) :
    (getToolRuntimePhase2 reg ref).2 = reg := by
  rcases phase2_cases reg ref with ⟨_, h2⟩ | ⟨h', h1, _, _⟩
  · exact h2
  · rw [hh] at h1
    cases h1

theorem phase1_mcp (reg : Registry) (ref : Str) (hloc : localHit reg ref = false)
    (hpre : startsWithMcp ref = true) :
    getToolRuntimePhase1 reg ref =
      match lookupKey ref reg.mcpRuntimeCache with
      | some r => some (some r, reg)
      | none => none := by
  unfold getToolRuntimePhase1
  simp [hloc, hpre]

theorem getToolRuntime_hit {reg : Registry} {ref : Str} {r : Runtime}
    (hloc : localHit reg ref = false) (hpre : startsWithMcp ref = true)
    (hc : lookupKey ref reg.mcpRuntimeCache = some r) :
    getToolRuntime reg ref = (some r, reg) := by
  unfold getToolRuntime
  rw [phase1_mcp reg ref hloc hpre, hc]

theorem getToolRuntime_miss {reg : Registry} {ref : Str}
    (hloc : localHit reg ref = false) (hpre : startsWithMcp ref = true)
    (hc : lookupKey ref reg.mcpRuntimeCache = none) :
    getToolRuntime reg ref = getToolRuntimePhase2 reg ref := by
  unfold getToolRuntime
  rw [phase1_mcp reg ref hloc hpre, hc]

/-- C3 counterexample: `mcp:p:a:b` and `mcp:p:b:a` name the same provider `p`
and the same capability set `{a, b}`, yet resolving them creates two distinct
cache entries (keyed by the raw reference strings) and two distinct handles —
the cache key is not `(provider, sorted filter)`. -/
theorem c3_counterexample :
    (getToolRuntime sampleReg "mcp:p:a:b".toList).1.isSome = true ∧
    (getToolRuntime (getToolRuntime sampleReg "mcp:p:a:b".toList).2 "mcp:p:b:a".toList).1.isSome
      = true ∧
    (getToolRuntime sampleReg "mcp:p:a:b".toList).1 ≠
      (getToolRuntime (getToolRuntime sampleReg "mcp:p:a:b".toList).2 "mcp:p:b:a".toList).1 ∧
    ((getToolRuntime (getToolRuntime sampleReg "mcp:p:a:b".toList).2
        "mcp:p:b:a".toList).2.mcpRuntimeCache.map Prod.fst) =
      ["mcp:p:a:b".toList, "mcp:p:b:a".toList] ∧
    (getToolRuntime (getToolRuntime sampleReg "mcp:p:a:b".toList).2
        "mcp:p:b:a".toList).2.nextId = sampleReg.nextId + 2 := by
  decide

/-- C3 (amended): the single-provider connection cache key is the raw
reference string itself, not `(provider, sorted filter)`.  For a non-local
`mcp:`-prefixed reference: a cache hit returns the cached handle with the
state unchanged; a cache miss that resolves constructs a fresh handle,
inserts it under the raw reference string, returns it, and a repeat resolve
of the same raw string then returns that same handle. -/
theorem c3_cache_key_is_raw_ref (reg : Registry) (ref : Str)
    (hloc : localHit reg ref = false) (hpre : startsWithMcp ref = true) :
    (∀ r, lookupKey ref reg.mcpRuntimeCache = some r →
      getToolRuntime reg ref = (some r, reg)) ∧
    (lookupKey ref reg.mcpRuntimeCache = none →
      ∀ h, (getToolRuntimePhase2 reg ref).1 = some h →
        getToolRuntime reg ref =
          (some h, ⟨reg.tools, upsert ref h reg.mcpRuntimeCache, reg.nextId + 1⟩) ∧
        h.rid = reg.nextId ∧
        getToolRuntime (getToolRuntime reg ref).2 ref =
          (some h, (getToolRuntime reg ref).2)) := by
  constructor
  · intro r hc
    exact getToolRuntime_hit hloc hpre hc
  · intro hc h hh
    have hmiss := getToolRuntime_miss hloc hpre hc
    have hspec := phase2_some_spec hh
    have hout : getToolRuntime reg ref =
        (some h, ⟨reg.tools, upsert ref h reg.mcpRuntimeCache, reg.nextId + 1⟩) := by
      rw [hmiss]
      have h1 : (getToolRuntimePhase2 reg ref) =
          ((getToolRuntimePhase2 reg ref).1, (getToolRuntimePhase2 reg ref).2) := rfl
      rw [h1, hh, hspec.2]
    refine ⟨hout, hspec.1, ?_⟩
    rw [hout]
    exact getToolRuntime_hit (r := h) hloc hpre (lookupKey_upsert_self ref h reg.mcpRuntimeCache)

/-- Witness for C3 (amended) at a concrete input: with `mcp:p` already cached,
resolving returns the cached handle and leaves the state unchanged. -/
theorem c3_cache_key_is_raw_ref_witness :
    (localHit ⟨sampleReg.tools, [("mcp:p".toList, Runtime.mcpSingle none none none 9)], 12⟩
      "mcp:p".toList = false) ∧
    (startsWithMcp "mcp:p".toList = true) ∧
    getToolRuntime ⟨sampleReg.tools, [("mcp:p".toList, Runtime.mcpSingle none none none 9)], 12⟩
        "mcp:p".toList =
      (some (Runtime.mcpSingle none none none 9),
       ⟨sampleReg.tools, [("mcp:p".toList, Runtime.mcpSingle none none none 9)], 12⟩) :=
  ⟨by decide, by decide,
   (c3_cache_key_is_raw_ref
      ⟨sampleReg.tools, [("mcp:p".toList, Runtime.mcpSingle none none none 9)], 12⟩
      "mcp:p".toList (by decide) (by decide)).1
      (Runtime.mcpSingle none none none 9) (by decide)⟩

/-- C9: `clear_mcp_cache` empties the connection-handle cache while leaving
the catalog unchanged, and a subsequent resolve of a previously cached
reference runs the constructor again (the allocation counter advances by
one) and returns a fresh handle distinct from the previously cached one. -/
theorem c9_clear_cache_fresh_handle (reg : Registry) (ref : Str) (rOld h : Runtime)
    (hold : lookupKey ref reg.mcpRuntimeCache = some rOld)
    (hrid : rOld.rid < reg.nextId)
    (hloc : localHit reg ref = false) (hpre : startsWithMcp ref = true)
    (hres : (getToolRuntimePhase2 (clearMcpCache reg) ref).1 = some h) :
    (clearMcpCache reg).tools = reg.tools ∧
    (clearMcpCache reg).mcpRuntimeCache = [] ∧
    getToolRuntime (clearMcpCache reg) ref =
      (some h, ⟨reg.tools, upsert ref h [], reg.nextId + 1⟩) ∧
    h ≠ rOld := by
  have hspec := phase2_some_spec hres
  have hmiss : getToolRuntime (clearMcpCache reg) ref =
      getToolRuntimePhase2 (clearMcpCache reg) ref :=
    getToolRuntime_miss hloc hpre rfl
  refine ⟨rfl, rfl, ?_, ?_⟩
  · rw [hmiss]
    have h1 : (getToolRuntimePhase2 (clearMcpCache reg) ref) =
        ((getToolRuntimePhase2 (clearMcpCache reg) ref).1,
         (getToolRuntimePhase2 (clearMcpCache reg) ref).2) := rfl
    rw [h1, hres, hspec.2]
    simp [clearMcpCache]
  · intro he
    rw [he] at hspec
    have : rOld.rid = reg.nextId := hspec.1
    omega

/-- Witness for C9 at a concrete input: `mcp:p` cached with an old handle of
identifier 0, counter at 1; after the clear, the resolve constructs the fresh
handle with identifier 1. -/
theorem c9_clear_cache_fresh_handle_witness :
    (lookupKey "mcp:p".toList
        (⟨sampleReg.tools, [("mcp:p".toList, Runtime.mcpSingle (some "cmd".toList) none none 0)],
          1⟩ : Registry).mcpRuntimeCache =
      some (Runtime.mcpSingle (some "cmd".toList) none none 0)) ∧
    getToolRuntime (clearMcpCache
        ⟨sampleReg.tools, [("mcp:p".toList, Runtime.mcpSingle (some "cmd".toList) none none 0)],
         1⟩) "mcp:p".toList =
      (some (Runtime.mcpSingle (some "cmd".toList) none none 1),
       ⟨sampleReg.tools,
        upsert "mcp:p".toList (Runtime.mcpSingle (some "cmd".toList) none none 1) [], 2⟩) :=
  ⟨by decide,
   (c9_clear_cache_fresh_handle
      ⟨sampleReg.tools, [("mcp:p".toList, Runtime.mcpSingle (some "cmd".toList) none none 0)], 1⟩
      "mcp:p".toList (Runtime.mcpSingle (some "cmd".toList) none none 0)
      (Runtime.mcpSingle (some "cmd".toList) none none 1)
      (by decide) (by decide) (by decide) (by decide) (by decide)).2.2.1⟩

/-! Section: Combined-runtime lemmas -/

theorem combined_cases (reg : Registry) (refs : List Str) :
    ((getCombinedMcpRuntime reg refs).1 = none ∧ (getCombinedMcpRuntime reg refs).2 = reg) ∨
    (∃ h, (getCombinedMcpRuntime reg refs).1 = some h ∧ h.rid = reg.nextId ∧
      (getCombinedMcpRuntime reg refs).2 = ⟨reg.tools, reg.mcpRuntimeCache, reg.nextId + 1⟩) := by
  unfold getCombinedMcpRuntime
  dsimp only
  split
  · exact Or.inl ⟨rfl, rfl⟩
  · exact Or.inr ⟨_, rfl, rfl, rfl⟩
  · exact Or.inr ⟨_, rfl, rfl, rfl⟩

/-- C4 counterexample: with providers `p` and `q` registered, issuing the same
combined request twice constructs two distinct handles and never touches the
connection cache — combined resolution is not cached at all. -/
theorem c4_counterexample :
    (getCombinedMcpRuntime sampleRegPQ ["mcp:p".toList, "mcp:q".toList]).1 =
      some (Runtime.mcpMulti [some "cmd".toList, some "cmd".toList] none none 0) ∧
    (getCombinedMcpRuntime sampleRegPQ ["mcp:p".toList, "mcp:q".toList]).2.mcpRuntimeCache
      = [] ∧
    (getCombinedMcpRuntime
        (getCombinedMcpRuntime sampleRegPQ ["mcp:p".toList, "mcp:q".toList]).2
        ["mcp:p".toList, "mcp:q".toList]).1 =
      some (Runtime.mcpMulti [some "cmd".toList, some "cmd".toList] none none 1) ∧
    (getCombinedMcpRuntime
        (getCombinedMcpRuntime sampleRegPQ ["mcp:p".toList, "mcp:q".toList]).2
        ["mcp:p".toList, "mcp:q".toList]).2.mcpRuntimeCache = [] ∧
    some (Runtime.mcpMulti [some "cmd".toList, some "cmd".toList] none none (0 : Nat)) ≠
      some (Runtime.mcpMulti [some "cmd".toList, some "cmd".toList] none none (1 : Nat)) := by
  decide

/-- C4 (amended): `_get_combined_mcp_runtime` neither reads nor writes the
connection cache; every successful call constructs a brand-new aggregated
handle (the allocation counter advances), so issuing the same combined
request twice yields two distinct handles, not a shared cached one. -/
theorem c4_combined_never_cached (reg : Registry) (refs : List Str) (h1 : Runtime)
    (hres : (getCombinedMcpRuntime reg refs).1 = some h1) :
    (getCombinedMcpRuntime reg refs).2.mcpRuntimeCache = reg.mcpRuntimeCache ∧
    (getCombinedMcpRuntime reg refs).2.tools = reg.tools ∧
    (getCombinedMcpRuntime reg refs).2.nextId = reg.nextId + 1 ∧
    h1.rid = reg.nextId ∧
    (∀ h2, (getCombinedMcpRuntime (getCombinedMcpRuntime reg refs).2 refs).1 = some h2 →
      h2 ≠ h1) := by
  rcases combined_cases reg refs with ⟨hn, _⟩ | ⟨h', hs, hrid, hst⟩
  · rw [hres] at hn
    cases hn
  · rw [hres] at hs
    injection hs with he
    subst he
    refine ⟨by rw [hst], by rw [hst], by rw [hst], hrid, ?_⟩
    intro h2 hres2
    rcases combined_cases (getCombinedMcpRuntime reg refs).2 refs with ⟨hn2, _⟩ | ⟨h2', hs2, hrid2, _⟩
    · rw [hres2] at hn2
      cases hn2
    · rw [hres2] at hs2
      injection hs2 with he2
      subst he2
      intro heq
      rw [heq] at hrid2
      rw [hst] at hrid2
      simp only [hrid] at hrid2
      omega

/-- Witness for C4 (amended) at a concrete input. -/
theorem c4_combined_never_cached_witness :
    ((getCombinedMcpRuntime sampleRegPQ ["mcp:p".toList, "mcp:q".toList]).1 =
      some (Runtime.mcpMulti [some "cmd".toList, some "cmd".toList] none none 0)) ∧
    (getCombinedMcpRuntime sampleRegPQ
        ["mcp:p".toList, "mcp:q".toList]).2.mcpRuntimeCache =
      sampleRegPQ.mcpRuntimeCache ∧
    (Runtime.mcpMulti [some "cmd".toList, some "cmd".toList] none none 0).rid =
      sampleRegPQ.nextId :=
  ⟨by decide,
   (c4_combined_never_cached sampleRegPQ ["mcp:p".toList, "mcp:q".toList]
      (Runtime.mcpMulti [some "cmd".toList, some "cmd".toList] none none 0) (by decide)).1,
   (c4_combined_never_cached sampleRegPQ ["mcp:p".toList, "mcp:q".toList]
      (Runtime.mcpMulti [some "cmd".toList, some "cmd".toList] none none 0) (by decide)).2.2.2.1⟩

/-- C5 counterexample: the combination request `[mcp:p:a, mcp:p:b]` names
provider `p` twice; the resulting handle's filter is `["a"]` alone — the
second reference's capability `b` is dropped, not unioned. -/
theorem c5_counterexample :
    (getCombinedMcpRuntime sampleReg ["mcp:p:a".toList, "mcp:p:b".toList]).1 =
      some (Runtime.mcpSingle (some "cmd".toList) none (some ["a".toList]) 0) ∧
    "b".toList ∉ ["a".toList] := by
  decide

theorem combineStep_absorb (T : List (Str × ToolMetadata)) (r1 r2 : Str)
    (hp1 : ¬ (splitOnChar ':' r1).length < 2) (hp2 : ¬ (splitOnChar ':' r2).length < 2)
    (hsame : (splitOnChar ':' r2).getD 1 [] = (splitOnChar ':' r1).getD 1 []) :
    combineStep T (combineStep T ([], []) r1) r2 = combineStep T ([], []) r1 := by
  unfold combineStep
  rw [if_neg hp1, if_neg hp2, hsame]
  dsimp only
  cases hfind : findServerEntry T ((splitOnChar ':' r1).getD 1 []) with
  | none => rfl
  | some kv =>
    simp only [lookupKey, List.append_nil, List.nil_append]
    simp [lookupKey_upsert_self]

/-- C5 (amended): when two remote references in one combination request name
the same provider, the second reference is ignored entirely — only the first
reference's capability filter (and env) is kept, the second's capabilities
are dropped rather than unioned. -/
theorem c5_first_filter_wins (reg : Registry) (r1 r2 : Str)
    (hp1 : ¬ (splitOnChar ':' r1).length < 2) (hp2 : ¬ (splitOnChar ':' r2).length < 2)
    (hsame : (splitOnChar ':' r2).getD 1 [] = (splitOnChar ':' r1).getD 1 []) :
    getCombinedMcpRuntime reg [r1, r2] = getCombinedMcpRuntime reg [r1] := by
  unfold getCombinedMcpRuntime
  simp only [List.foldl_cons, List.foldl_nil]
  rw [combineStep_absorb reg.tools r1 r2 hp1 hp2 hsame]

/-- Witness for C5 (amended) at a concrete input: `[mcp:p:a, mcp:p:b]`
resolves exactly as `[mcp:p:a]` alone. -/
theorem c5_first_filter_wins_witness :
    (¬ (splitOnChar ':' "mcp:p:a".toList).length < 2) ∧
    ((splitOnChar ':' "mcp:p:b".toList).getD 1 [] =
      (splitOnChar ':' "mcp:p:a".toList).getD 1 []) ∧
    getCombinedMcpRuntime sampleReg ["mcp:p:a".toList, "mcp:p:b".toList] =
      getCombinedMcpRuntime sampleReg ["mcp:p:a".toList] :=
  ⟨by decide, by decide,
   c5_first_filter_wins sampleReg "mcp:p:a".toList "mcp:p:b".toList
     (by decide) (by decide) (by decide)⟩

/-! Section: get_tools_for_agent decomposition -/

theorem agentLoop_decompose (refs : List Str) :
    ∀ (ts : List Runtime) (ms : List Str) (reg : Registry),
    refs.foldl agentStep (ts, ms, reg) =
      (ts ++ (resolveSeq reg (refs.filter (fun r => !startsWithMcp r))).1,
       ms ++ refs.filter (fun r => startsWithMcp r),
       (resolveSeq reg (refs.filter (fun r => !startsWithMcp r))).2) := by
  induction refs with
  | nil =>
    intro ts ms reg
    simp [resolveSeq]
  | cons r rest ih =>
    intro ts ms reg
    cases hm : startsWithMcp r with
    | true =>
      simp only [List.foldl_cons, List.filter_cons, hm, Bool.not_true, if_true, if_false]
      have hstep : agentStep (ts, ms, reg) r = (ts, ms ++ [r], reg) := by
        simp [agentStep, hm]
      rw [hstep, ih]
      simp [List.append_assoc]
    | false =>
      simp only [List.foldl_cons, List.filter_cons, hm, Bool.not_false, if_true, if_false]
      cases hgr : getToolRuntime reg r with
      | mk o reg' =>
        cases o with
        | some t =>
          have hstep : agentStep (ts, ms, reg) r = (ts ++ [t], ms, reg') := by
            simp [agentStep, hm, hgr]
          have hseq : resolveSeq reg (r :: rest.filter (fun r => !startsWithMcp r)) =
              ((t :: (resolveSeq reg' (rest.filter (fun r => !startsWithMcp r))).1),
               (resolveSeq reg' (rest.filter (fun r => !startsWithMcp r))).2) := by
            simp [resolveSeq, hgr]
          rw [hstep, ih, hseq]
          simp [List.append_assoc]
        | none =>
          have hstep : agentStep (ts, ms, reg) r = (ts, ms, reg') := by
            simp [agentStep, hm, hgr]
          have hseq : resolveSeq reg (r :: rest.filter (fun r => !startsWithMcp r)) =
              resolveSeq reg' (rest.filter (fun r => !startsWithMcp r)) := by
            simp [resolveSeq, hgr]
          rw [hstep, ih, hseq]
          simp

/-- C1: `get_tools_for_agent` resolves each non-`mcp:` reference individually
through `get_tool_runtime`, in input order, and gathers all `mcp:`-prefixed
references into one combined resolution whose single handle (when produced)
is appended exactly once at the end — never one handle per remote reference,
as witnessed by the output being at most one element longer than the list of
local resolutions. -/
theorem c1_resolve_locals_individually_one_combined (reg : Registry) (refs : List Str) :
    getToolsForAgent reg refs =
      (let locals := resolveSeq reg (refs.filter (fun r => !startsWithMcp r))
       let mcps := refs.filter (fun r => startsWithMcp r)
       if mcps.isEmpty then (locals.1, locals.2)
       else
         match getCombinedMcpRuntime locals.2 mcps with
         | (some m, reg') => (locals.1 ++ [m], reg')
         | (none, reg') => (locals.1, reg')) ∧
    (getToolsForAgent reg refs).1.length ≤
      (resolveSeq reg (refs.filter (fun r => !startsWithMcp r))).1.length + 1 := by
  have hloop := agentLoop_decompose refs [] [] reg
  have hmain : getToolsForAgent reg refs =
      (let locals := resolveSeq reg (refs.filter (fun r => !startsWithMcp r))
       let mcps := refs.filter (fun r => startsWithMcp r)
       if mcps.isEmpty then (locals.1, locals.2)
       else
         match getCombinedMcpRuntime locals.2 mcps with
         | (some m, reg') => (locals.1 ++ [m], reg')
         | (none, reg') => (locals.1, reg')) := by
    unfold getToolsForAgent
    rw [hloop]
    simp only [List.nil_append]
  refine ⟨hmain, ?_⟩
  rw [hmain]
  dsimp only
  split
  · simp
  · split
    · simp
    · simp

/-! Section: Reference-format error handling (loader) -/

/-- C8 counterexample: with provider `p` configured, the reference
`mcp:p[a,b` (unbalanced bracket) and the reference `mcp:` (empty provider
name) are silently swallowed by `parse_mcp_config` — the result is identical
to parsing an empty list, and no error of any kind is raised (the function is
total; no `InvalidReferenceFormat` exists in the code), even though the
well-formed `mcp:p[a,b]` does resolve. -/
theorem c8_counterexample :
    parseMcpConfig sampleOsenv sampleLoaderCfg ["mcp:p[a,b".toList, "mcp:".toList] =
      parseMcpConfig sampleOsenv sampleLoaderCfg [] ∧
    (parseMcpConfig sampleOsenv sampleLoaderCfg ["mcp:p[a,b]".toList]).commands ≠ [] := by
  decide

theorem parseMcpStep_skip (osenv : Str → Option Str) (cfg : LoaderConfig)
    (acc : ParsedMcp × List Str) (ref : Str) (hpre : startsWithMcp ref = true)
    (hbr : ¬(((ref.drop 4).contains '[') = true ∧ ((ref.drop 4).contains ']') = true))
    (hun : lookupKey (ref.drop 4) cfg.mcpServers = none) :
    parseMcpStep osenv cfg acc ref = acc := by
  unfold parseMcpStep parseBracketRef
  rw [if_pos hpre]
  dsimp only
  rw [if_neg hbr]
  simp [hun]

/-- C8 (amended): `parse_mcp_config` never fails: a remote reference whose
bracket syntax is malformed (it lacks `[` or `]`) is not rejected — the whole
text after `mcp:` (including any stray bracket, or the empty string for an
empty provider name) is treated as a server name, and when no such server is
configured the reference is silently skipped, leaving the parse result
exactly as if the reference had not been passed at all. -/
theorem c8_malformed_ref_silently_skipped (osenv : Str → Option Str) (cfg : LoaderConfig)
    (ref : Str) (refs : List Str) (hpre : startsWithMcp ref = true)
    (hbr : ¬(((ref.drop 4).contains '[') = true ∧ ((ref.drop 4).contains ']') = true))
    (hun : lookupKey (ref.drop 4) cfg.mcpServers = none) :
    parseMcpConfig osenv cfg (ref :: refs) = parseMcpConfig osenv cfg refs := by
  unfold parseMcpConfig
  rw [List.foldl_cons, parseMcpStep_skip osenv cfg _ ref hpre hbr hun]

/-- Witness for C8 (amended) at a concrete input: with `p` configured,
parsing `[mcp:p[a,b]` equals parsing nothing. -/
theorem c8_malformed_ref_silently_skipped_witness :
    (startsWithMcp "mcp:p[a,b".toList = true) ∧
    (lookupKey ("mcp:p[a,b".toList.drop 4) sampleLoaderCfg.mcpServers = none) ∧
    parseMcpConfig sampleOsenv sampleLoaderCfg ["mcp:p[a,b".toList] =
      parseMcpConfig sampleOsenv sampleLoaderCfg [] :=
  ⟨by decide, by decide,
   c8_malformed_ref_silently_skipped sampleOsenv sampleLoaderCfg "mcp:p[a,b".toList []
     (by decide) (by decide) (by decide)⟩

/-! Section: String-splitting lemmas -/

theorem splitOnChar_ne_nil (c : Char) (l : Str) : splitOnChar c l ≠ [] := by
  induction l with
  | nil => simp [splitOnChar]
  | cons x xs ih =>
    unfold splitOnChar
    cases h : splitOnChar c xs with
    | nil => simp
    | cons r rs => by_cases hx : x = c <;> simp [hx]

theorem splitOnChar_not_mem {c : Char} {l : Str} (h : c ∉ l) : splitOnChar c l = [l] := by
  induction l with
  | nil => rfl
  | cons x xs ih =>
    have hx : x ≠ c := fun he => h (he ▸ List.mem_cons_self x xs)
    have hxs : c ∉ xs := fun hm => h (List.mem_cons_of_mem x hm)
    unfold splitOnChar
    rw [ih hxs]
    simp [hx]

theorem splitOnChar_sep {c : Char} {l₁ : Str} (l₂ : Str) (h : c ∉ l₁) :
    splitOnChar c (l₁ ++ c :: l₂) = l₁ :: splitOnChar c l₂ := by
  induction l₁ with
  | nil =>
    simp only [List.nil_append]
    cases hs : splitOnChar c l₂ with
    | nil => exact absurd hs (splitOnChar_ne_nil c l₂)
    | cons r rs =>
      conv_lhs => unfold splitOnChar
      rw [hs]
      simp
  | cons x xs ih =>
    have hx : x ≠ c := fun he => h (he ▸ List.mem_cons_self x xs)
    have hxs : c ∉ xs := fun hm => h (List.mem_cons_of_mem x hm)
    simp only [List.cons_append]
    conv_lhs => unfold splitOnChar
    rw [ih hxs]
    simp [hx]

theorem ne_append_cons (l : Str) (x : Char) (r : Str) : l ≠ l ++ x :: r := by
  intro h
  have := congrArg List.length h
  simp at this

theorem firstIdxOf_sep {c : Char} {l₁ : Str} (l₂ : Str) (h : c ∉ l₁) :
    firstIdxOf c (l₁ ++ c :: l₂) = some l₁.length := by
  induction l₁ with
  | nil => simp [firstIdxOf]
  | cons x xs ih =>
    have hx : x ≠ c := fun he => h (he ▸ List.mem_cons_self x xs)
    have hxs : c ∉ xs := fun hm => h (List.mem_cons_of_mem x hm)
    simp [firstIdxOf, hx, ih hxs]

/-! Section: Catalog membership lemmas -/

theorem mem_upsert_pair {x : Str × α} {k : Str} {v : α} {l : List (Str × α)}
    (h : x ∈ upsert k v l) : x = (k, v) ∨ x ∈ l := by
  induction l with
  | nil => simpa [upsert] using h
  | cons hd tl ih =>
    obtain ⟨k', v'⟩ := hd
    by_cases hk : k' = k
    · subst hk
      simp only [upsert, eq_self_iff_true, if_true, List.mem_cons] at h
      rcases h with h | h
      · exact Or.inl h
      · exact Or.inr (List.mem_cons_of_mem _ h)
    · simp only [upsert, if_neg hk, List.mem_cons] at h
      rcases h with h | h
      · exact Or.inr (by simp [h])
      · rcases ih h with h | h
        · exact Or.inl h
        · exact Or.inr (List.mem_cons_of_mem _ h)

theorem mem_applyWrites {x : Str × α} {ws : List (Str × α)} {l : List (Str × α)}
    (h : x ∈ applyWrites ws l) : x ∈ ws ∨ x ∈ l := by
  induction ws generalizing l with
  | nil => exact Or.inr h
  | cons w tl ih =>
    obtain ⟨k, v⟩ := w
    rw [applyWrites_cons] at h
    rcases ih h with h2 | h2
    · exact Or.inl (List.mem_cons_of_mem _ h2)
    · rcases mem_upsert_pair h2 with h3 | h3
      · exact Or.inl (by simp [h3])
      · exact Or.inr h3

theorem registered_server_entries {p : Str} {caps : List Str} {cfg : Config}
    {kv : Str × ToolMetadata}
    (h : kv ∈ (registerMcpServerTools emptyRegistry p caps cfg).tools) :
    kv.2.server = some p ∧ kv.2.type = ToolType.MCP := by
  rw [registerMcpServerTools_eq] at h
  rcases mem_applyWrites h with h2 | h2
  · rcases serverWrites_mem h2 with ⟨n, rfl⟩
    exact ⟨rfl, rfl⟩
  · simp [emptyRegistry] at h2

theorem scanServer_all_miss {s : Str} {T : List (Str × ToolMetadata)}
    (h : ∀ kv ∈ T, kv.2.server ≠ some s) :
    ∀ acc, T.foldl (scanStep s) acc = acc := by
  induction T with
  | nil => intro acc; rfl
  | cons kv tl ih =>
    intro acc
    have hkv : kv.2.server ≠ some s := h kv (List.mem_cons_self _ _)
    have hstep : scanStep s acc kv = acc := by
      unfold scanStep
      rw [if_neg]
      intro hc
      exact hkv hc.2
    rw [List.foldl_cons, hstep]
    exact ih (fun kv' hm => h kv' (List.mem_cons_of_mem _ hm)) acc

theorem lookupKey_mem {k : Str} {v : α} {l : List (Str × α)}
    (h : lookupKey k l = some v) : (k, v) ∈ l := by
  induction l with
  | nil => simp [lookupKey] at h
  | cons hd tl ih =>
    obtain ⟨k', v'⟩ := hd
    by_cases hk : k' = k
    · subst hk
      simp only [lookupKey, if_pos rfl] at h
      injection h with hv
      subst hv
      exact List.mem_cons_self _ _
    · simp only [lookupKey, if_neg hk] at h
      exact List.mem_cons_of_mem _ (ih h)

/-- C10: for a provider `p` registered via `register_mcp_server_tools` and a
bracketed capability list `cs`, `get_tool_runtime "mcp:p[cs]"` returns `None`
even though `p` is registered, because the registry splits the reference only
on `":"` and treats `p[cs]` as the provider name; the bracket grammar is
interpreted only by `DynamicToolLoader.parse_mcp_config`, whose bracket
parser extracts provider `p` and the split/stripped capability list. -/
theorem c10_registry_ignores_brackets (p cs : Str) (caps : List Str) (cfg : Config)
    (h1 : ':' ∉ p) (h2 : ':' ∉ cs) (h3 : '[' ∉ p) (h4 : ']' ∉ p) (h5 : ']' ∉ cs) :
    getToolRuntime (registerMcpServerTools emptyRegistry p caps cfg)
        (mcpTag ++ (p ++ '[' :: cs ++ [']'])) =
      (none, registerMcpServerTools emptyRegistry p caps cfg) ∧
    parseBracketRef ((mcpTag ++ (p ++ '[' :: cs ++ [']'])).drop 4) =
      (p, some ((splitOnChar ',' cs).map stripWs)) := by
  set rest : Str := p ++ '[' :: cs ++ [']'] with hrest
  set reg : Registry := registerMcpServerTools emptyRegistry p caps cfg with hreg
  have hcolon_rest : ':' ∉ rest := by
    rw [hrest]
    intro hm
    rcases List.mem_append.mp hm with hm | hm
    · rcases List.mem_append.mp hm with hm | hm
      · exact h1 hm
      · rcases List.mem_cons.mp hm with hm | hm
        · exact absurd hm (by decide)
        · exact h2 hm
    · exact absurd (List.mem_singleton.mp hm) (by decide)
  have hsplit : splitOnChar ':' (mcpTag ++ rest) = [['m', 'c', 'p'], rest] := by
    rw [show mcpTag ++ rest = ['m', 'c', 'p'] ++ ':' :: rest from rfl]
    rw [splitOnChar_sep rest (by decide), splitOnChar_not_mem hcolon_rest]
  have hne : p ≠ rest := by
    rw [hrest, List.append_assoc]
    exact ne_append_cons p '[' (cs ++ [']'])
  have hscan : scanServer reg.tools rest = ([], none) := by
    unfold scanServer
    apply scanServer_all_miss
    intro kv hm
    rw [hreg] at hm
    have hsrv := (registered_server_entries hm).1
    rw [hsrv]
    intro he
    injection he with he2
    exact hne he2
  have hloc : localHit reg (mcpTag ++ rest) = false := by
    unfold localHit
    cases hl : lookupKey (mcpTag ++ rest) reg.tools with
    | none => rfl
    | some md =>
      have hmem := lookupKey_mem hl
      rw [hreg] at hmem
      have htype : md.type = ToolType.MCP := (registered_server_entries hmem).2
      simp [htype]
  have hpre : startsWithMcp (mcpTag ++ rest) = true := by
    unfold startsWithMcp
    rw [ List.isPrefixOf_iff_prefix]
    exact List.prefix_append mcpTag rest
  have hcache : lookupKey (mcpTag ++ rest) reg.mcpRuntimeCache = none := by
    rw [hreg, registerMcpServerTools_eq]
    rfl
  have hphase2 : getToolRuntimePhase2 reg (mcpTag ++ rest) = (none, reg) := by
    unfold getToolRuntimePhase2
    dsimp only
    rw [hsplit]
    simp only [List.length_cons, List.length_nil, List.getD_cons_succ, List.getD_cons_zero]
    rw [if_neg (by omega)]
    rw [hscan]
  constructor
  · rw [getToolRuntime_miss hloc hpre hcache, hphase2]
  · have hdrop : (mcpTag ++ rest).drop 4 = rest := List.drop_left mcpTag rest
    rw [hdrop, hrest]
    unfold parseBracketRef
    have hc1 : (p ++ '[' :: cs ++ [']']).contains '[' = true := by
      refine List.elem_eq_true_of_mem (List.mem_append.mpr (Or.inl ?_))
      exact List.mem_append.mpr (Or.inr (List.mem_cons_self _ _))
    have hc2 : (p ++ '[' :: cs ++ [']']).contains ']' = true :=
      List.elem_eq_true_of_mem (List.mem_append.mpr (Or.inr (List.mem_singleton.mpr rfl)))
    rw [if_pos ⟨hc1, hc2⟩]
    have hnotr : ']' ∉ p ++ '[' :: cs := by
      intro hm
      rcases List.mem_append.mp hm with hm | hm
      · exact h4 hm
      · rcases List.mem_cons.mp hm with hm | hm
        · exact absurd hm (by decide)
        · exact h5 hm
    have hi : firstIdxOf '[' (p ++ '[' :: cs ++ [']']) = some p.length := by
      rw [List.append_assoc]
      exact firstIdxOf_sep (cs ++ [']']) h3
    have hj : firstIdxOf ']' (p ++ '[' :: cs ++ [']']) = some (p ++ '[' :: cs).length :=
      firstIdxOf_sep [] hnotr
    rw [hi, hj]
    simp only [Option.getD_some]
    have htake_j : (p ++ '[' :: cs ++ [']']).take (p ++ '[' :: cs).length = p ++ '[' :: cs :=
      List.take_left _ _
    have hdrop_i : (p ++ '[' :: cs).drop (p.length + 1) = cs := by
      rw [← List.drop_drop, List.drop_left]
      rfl
    have htake_i : (p ++ '[' :: cs ++ [']']).take p.length = p := by
      rw [List.append_assoc]
      exact List.take_left p _
    rw [htake_j, hdrop_i, htake_i]

/-- Witness for C10 at a concrete input: with `p` registered carrying
capabilities `a` and `b`, `mcp:p[a,b]` resolves to `None` in the registry
while the loader's bracket parser extracts `(p, [a, b])`. -/
theorem c10_registry_ignores_brackets_witness :
    (':' ∉ "p".toList) ∧
    getToolRuntime (registerMcpServerTools emptyRegistry "p".toList ["a".toList, "b".toList]
        sampleCfg) (mcpTag ++ ("p".toList ++ '[' :: "a,b".toList ++ [']'])) =
      (none, registerMcpServerTools emptyRegistry "p".toList ["a".toList, "b".toList] sampleCfg) ∧
    parseBracketRef ((mcpTag ++ ("p".toList ++ '[' :: "a,b".toList ++ [']'])).drop 4) =
      ("p".toList, some ((splitOnChar ',' "a,b".toList).map stripWs)) :=
  ⟨by decide,
   (c10_registry_ignores_brackets "p".toList "a,b".toList ["a".toList, "b".toList] sampleCfg
      (by decide) (by decide) (by decide) (by decide) (by decide)).1,
   (c10_registry_ignores_brackets "p".toList "a,b".toList ["a".toList, "b".toList] sampleCfg
      (by decide) (by decide) (by decide) (by decide) (by decide)).2⟩

/-! Section: Provider lifecycle manager -/

/-- C7 counterexample: with stdio servers `A`, `B`, `C` configured and `B`'s
discovery probe always raising, `initialize_all_servers` returns
`{A: True, B: True, C: True}` — not `{A: True, B: False, C: True}`: the probe
error is swallowed inside `discover_server_tools` (reported as an empty tool
list), so `initialize_server` still registers a server-wide entry for `B` and
reports success.  `A`'s and `C`'s discovered capabilities are in the catalog. -/
theorem c7_counterexample :
    (initializeAllServers sampleOsenv sampleProbe3 noFault sampleLoaderCfg3 ⟨[]⟩
        emptyRegistry).1 =
      [("A".toList, true), ("B".toList, true), ("C".toList, true)] ∧
    lookupKey "B".toList
        (initializeAllServers sampleOsenv sampleProbe3 noFault sampleLoaderCfg3 ⟨[]⟩
          emptyRegistry).1 = some true ∧
    (lookupKey "mcp:A:a1".toList
        (initializeAllServers sampleOsenv sampleProbe3 noFault sampleLoaderCfg3 ⟨[]⟩
          emptyRegistry).2.2.tools).isSome = true ∧
    (lookupKey "mcp:C:c1".toList
        (initializeAllServers sampleOsenv sampleProbe3 noFault sampleLoaderCfg3 ⟨[]⟩
          emptyRegistry).2.2.tools).isSome = true ∧
    (lookupKey "mcp:B".toList
        (initializeAllServers sampleOsenv sampleProbe3 noFault sampleLoaderCfg3 ⟨[]⟩
          emptyRegistry).2.2.tools).isSome = true := by
  decide

/-- C7 (amended): a failing discovery probe is swallowed inside
`discover_server_tools` (reported as an empty capability list), so
`initialize_all_servers` over configured stdio servers `a`, `b`, `c` where
`b`'s probe raises returns `{a: True, b: True, c: True}` — `b` is recorded as
a success and still granted an unrestricted server-wide catalog entry — while
`a`'s and `c`'s discovered capabilities are registered in the catalog. -/
theorem c7_probe_failure_swallowed (osenv : Str → Option Str) (probe : ProbeOracle)
    (a b c : Str) (sca scb scc : ServerCfg) (ta tc : List Str) (cmda cmdb cmdc : Str)
    (hab : a ≠ b) (hac : a ≠ c) (hbc : b ≠ c)
    (hta : sca.type = some stdioStr) (htb : scb.type = some stdioStr)
    (htc : scc.type = some stdioStr)
    (hca : buildCommand osenv sca = some cmda)
    (hcb : buildCommand osenv scb = some cmdb)
    (hcc : buildCommand osenv scc = some cmdc)
    (hpa : probe a = some ta) (hpb : probe b = none) (hpc : probe c = some tc)
    (hne_ta : ta ≠ []) (hne_tc : tc ≠ []) :
    initializeAllServers osenv probe noFault ⟨[(a, sca), (b, scb), (c, scc)]⟩ ⟨[]⟩
        emptyRegistry =
      ([(a, true), (b, true), (c, true)],
       ⟨[(a, true), (b, true), (c, true)]⟩,
       registerMcpServerTools
         (registerMcpTool
           (registerMcpServerTools emptyRegistry a ta (runtimeConfigOf osenv sca))
           none b (runtimeConfigOf osenv scb))
         c tc (runtimeConfigOf osenv scc)) := by
  have hda : discoverServerTools osenv probe a sca = ta := by
    unfold discoverServerTools
    rw [hca, hpa]
  have hdb : discoverServerTools osenv probe b scb = [] := by
    unfold discoverServerTools
    rw [hcb, hpb]
  have hdc : discoverServerTools osenv probe c scc = tc := by
    unfold discoverServerTools
    rw [hcc, hpc]
  have hstep1 : ∀ reg, initializeServer osenv probe noFault ⟨[(a, sca), (b, scb), (c, scc)]⟩
      ⟨[]⟩ reg a =
      (true, ⟨[(a, true)]⟩, registerMcpServerTools reg a ta (runtimeConfigOf osenv sca)) := by
    intro reg
    unfold initializeServer
    simp [lookupKey, hta, noFault, hda, hne_ta, upsert]
  have hstep2 : ∀ reg, initializeServer osenv probe noFault ⟨[(a, sca), (b, scb), (c, scc)]⟩
      ⟨[(a, true)]⟩ reg b =
      (true, ⟨[(a, true), (b, true)]⟩, registerMcpTool reg none b (runtimeConfigOf osenv scb)) := by
    intro reg
    unfold initializeServer
    simp [lookupKey, hab, htb, noFault, hdb, upsert]
  have hstep3 : ∀ reg, initializeServer osenv probe noFault ⟨[(a, sca), (b, scb), (c, scc)]⟩
      ⟨[(a, true), (b, true)]⟩ reg c =
      (true, ⟨[(a, true), (b, true), (c, true)]⟩,
       registerMcpServerTools reg c tc (runtimeConfigOf osenv scc)) := by
    intro reg
    unfold initializeServer
    simp [lookupKey, hac, hbc, htc, noFault, hdc, hne_tc, upsert]
  unfold initializeAllServers
  simp only [List.foldl_cons, List.foldl_nil]
  rw [hstep1, hstep2, hstep3]
  simp

/-- Witness for C7 (amended) at a concrete input: the three-server fixture
with `B`'s probe raising. -/
theorem c7_probe_failure_swallowed_witness :
    (sampleProbe3 "B".toList = none) ∧
    initializeAllServers sampleOsenv sampleProbe3 noFault
        ⟨[("A".toList, ⟨some stdioStr, some "ca".toList, none, []⟩),
          ("B".toList, ⟨some stdioStr, some "cb".toList, none, []⟩),
          ("C".toList, ⟨some stdioStr, some "cc".toList, none, []⟩)]⟩ ⟨[]⟩ emptyRegistry =
      ([("A".toList, true), ("B".toList, true), ("C".toList, true)],
       ⟨[("A".toList, true), ("B".toList, true), ("C".toList, true)]⟩,
       registerMcpServerTools
         (registerMcpTool
           (registerMcpServerTools emptyRegistry "A".toList ["a1".toList]
             (runtimeConfigOf sampleOsenv ⟨some stdioStr, some "ca".toList, none, []⟩))
           none "B".toList (runtimeConfigOf sampleOsenv ⟨some stdioStr, some "cb".toList, none, []⟩))
         "C".toList ["c1".toList]
         (runtimeConfigOf sampleOsenv ⟨some stdioStr, some "cc".toList, none, []⟩)) :=
  ⟨by decide,
   c7_probe_failure_swallowed sampleOsenv sampleProbe3 "A".toList "B".toList "C".toList
     ⟨some stdioStr, some "ca".toList, none, []⟩ ⟨some stdioStr, some "cb".toList, none, []⟩
     ⟨some stdioStr, some "cc".toList, none, []⟩ ["a1".toList] ["c1".toList]
     "ca".toList "cb".toList "cc".toList
     (by decide) (by decide) (by decide) (by decide) (by decide) (by decide)
     (by decide) (by decide) (by decide) (by decide) (by decide) (by decide)
     (by decide) (by decide)⟩

/-! Section: Concurrency: at-most-one-connection -/

theorem mem_set_or {l : List α} {i : Nat} {v x : α} (h : x ∈ l.set i v) :
    x = v ∨ x ∈ l := by
  induction l generalizing i with
  | nil => simp at h
  | cons hd tl ih =>
    cases i with
    | zero =>
      rcases List.mem_cons.mp h with h2 | h2
      · exact Or.inl h2
      · exact Or.inr (List.mem_cons_of_mem _ h2)
    | succ j =>
      rcases List.mem_cons.mp h with h2 | h2
      · exact Or.inr (by simp [h2])
      · rcases ih h2 with h3 | h3
        · exact Or.inl h3
        · exact Or.inr (List.mem_cons_of_mem _ h3)

theorem getD_set_self {l : List α} {i : Nat} (hi : i < l.length) (v d : α) :
    (l.set i v).getD i d = v := by
  induction l generalizing i with
  | nil => simp at hi
  | cons hd tl ih =>
    cases i with
    | zero => rfl
    | succ j =>
      simp only [List.length_cons] at hi
      simp only [List.set_cons_succ, List.getD_cons_succ]
      exact ih (i := j) (by omega)

theorem getD_set_ne {l : List α} {i j : Nat} (hij : i ≠ j) (v d : α) :
    (l.set i v).getD j d = l.getD j d := by
  induction l generalizing i j with
  | nil => simp
  | cons hd tl ih =>
    cases i with
    | zero =>
      cases j with
      | zero => exact absurd rfl hij
      | succ j2 => rfl
    | succ i2 =>
      cases j with
      | zero => rfl
      | succ j2 =>
        have hne : i2 ≠ j2 := by
          intro he
          exact hij (by rw [he])
        simp only [List.set_cons_succ, List.getD_cons_succ]
        exact ih hne

theorem localHit_false_of_allMCP {reg : Registry} (ref : Str)
    (hmcp : ∀ kv ∈ reg.tools, kv.2.type = ToolType.MCP) :
    localHit reg ref = false := by
  unfold localHit
  cases hl : lookupKey ref reg.tools with
  | none => rfl
  | some md =>
    have := hmcp (ref, md) (lookupKey_mem hl)
    simp only at this
    simp [this]

theorem concStep_tasks_length (ref : Str) (s : ConcSys) (a : SchedAct) :
    (concStep ref s a).tasks.length = s.tasks.length := by
  cases a with
  | acquire i =>
    simp only [concStep]
    split
    · simp
    · rfl
  | check i =>
    simp only [concStep]
    split
    · split
      · simp
      · simp
    · rfl
  | construct i =>
    simp only [concStep]
    split
    · simp
    · rfl

theorem concRun_tasks_length (ref : Str) (s : ConcSys) (sched : List SchedAct) :
    (concRun ref s sched).tasks.length = s.tasks.length := by
  induction sched generalizing s with
  | nil => rfl
  | cons a rest ih =>
    unfold concRun
    rw [ih, concStep_tasks_length]

theorem lt_length_of_getD_ne {l : List α} {i : Nat} {d : α} (h : l.getD i d ≠ d) :
    i < l.length := by
  by_contra hge
  push_neg at hge
  rw [List.getD_eq_default l d hge] at h
  exact h rfl

theorem getD_mem_of_lt {l : List α} {i : Nat} (hi : i < l.length) (d : α) :
    l.getD i d ∈ l := by
  rw [List.getD_eq_get l d hi]
  exact List.get_mem l i hi

theorem forall_mem_set {l : List α} {i : Nat} {v : α} {P : α → Prop} (d : α)
    (hv : P v) (hother : ∀ j, j ≠ i → j < l.length → P (l.getD j d)) :
    ∀ x ∈ l.set i v, P x := by
  intro x hx
  rcases List.mem_iff_get?.mp hx with ⟨n, hn⟩
  by_cases hni : n = i
  · subst hni
    rcases Nat.lt_or_ge n l.length with hlt | hge
    · rw [List.get?_set_eq_of_lt v hlt] at hn
      injection hn with he
      exact he ▸ hv
    · rw [List.get?_eq_none.mpr (by simpa using hge)] at hn
      cases hn
  · rw [List.get?_set_ne v l (Ne.symm hni)] at hn
    have hlen : n < l.length := by
      by_contra hge
      push_neg at hge
      rw [List.get?_eq_none.mpr hge] at hn
      cases hn
    have hgd : l.getD n d = x := by
      simp [List.getD, ← List.get?_eq_getElem?, hn]
    exact hgd ▸ hother n hni hlen

theorem concStep_preserves_inv {reg₀ : Registry} {ref : Str} {h : Runtime}
    (hmcp : ∀ kv ∈ reg₀.tools, kv.2.type = ToolType.MCP)
    (hpre : startsWithMcp ref = true)
    (hc0 : lookupKey ref reg₀.mcpRuntimeCache = none)
    (hres : (getToolRuntimePhase2 reg₀ ref).1 = some h)
    {s : ConcSys} (hinv : ConcInv reg₀ ref h s) (a : SchedAct) :
    ConcInv reg₀ ref h (concStep ref s a) := by
  obtain ⟨hlock1, hlock2, hphase⟩ := hinv
  have hreg1 := (phase2_some_spec hres).2
  have hp1pre : getToolRuntimePhase1 reg₀ ref = none := by
    rw [phase1_mcp reg₀ ref (localHit_false_of_allMCP ref hmcp) hpre, hc0]
  have hp1post : getToolRuntimePhase1
      (⟨reg₀.tools, upsert ref h reg₀.mcpRuntimeCache, reg₀.nextId + 1⟩ : Registry) ref =
      some (some h, ⟨reg₀.tools, upsert ref h reg₀.mcpRuntimeCache, reg₀.nextId + 1⟩) := by
    rw [phase1_mcp (⟨reg₀.tools, upsert ref h reg₀.mcpRuntimeCache, reg₀.nextId + 1⟩ : Registry)
      ref (localHit_false_of_allMCP ref hmcp) hpre, lookupKey_upsert_self]
  cases a with
  | acquire i =>
    simp only [concStep]
    by_cases hcond : s.lockBy = none ∧
        s.tasks.getD i (TaskPc.finished none) = TaskPc.ready
    · rw [if_pos hcond]
      obtain ⟨hl, hr⟩ := hcond
      have hilen : i < s.tasks.length := lt_length_of_getD_ne (by rw [hr]; simp)
      refine ⟨?_, ?_, ?_⟩
      · intro j hj
        injection hj with hj
        subst hj
        exact Or.inl (getD_set_self hilen _ _)
      · intro j hj2
        by_cases hji : j = i
        · subst hji
          rfl
        · rw [getD_set_ne (Ne.symm hji)] at hj2
          have := hlock2 j hj2
          rw [hl] at this
          cases this
      · rcases hphase with ⟨hr0, hnf⟩ | ⟨hr1, hnm, hfin⟩
        · left
          refine ⟨hr0, ?_⟩
          intro pc hpc r
          rcases mem_set_or hpc with rfl | hpc2
          · simp
          · exact hnf pc hpc2 r
        · right
          refine ⟨hr1, ?_, ?_⟩
          · intro pc hpc
            rcases mem_set_or hpc with rfl | hpc2
            · simp
            · exact hnm pc hpc2
          · intro pc hpc r hr2
            rcases mem_set_or hpc with rfl | hpc2
            · cases hr2
            · exact hfin pc hpc2 r hr2
    · rw [if_neg hcond]
      exact ⟨hlock1, hlock2, hphase⟩
  | check i =>
    simp only [concStep]
    by_cases hcond : s.lockBy = some i ∧
        s.tasks.getD i (TaskPc.finished none) = TaskPc.acquired
    · rw [if_pos hcond]
      obtain ⟨hl, hr⟩ := hcond
      have hilen : i < s.tasks.length := lt_length_of_getD_ne (by rw [hr]; simp)
      rcases hphase with ⟨hr0, hnf⟩ | ⟨hr1, hnm, hfin⟩
      · rw [hr0, hp1pre]
        dsimp only
        refine ⟨?_, ?_, ?_⟩
        · intro j hj
          rw [hl] at hj
          injection hj with hj
          subst hj
          exact Or.inr (getD_set_self hilen _ _)
        · intro j hj2
          by_cases hji : j = i
          · subst hji
            exact hl
          · rw [getD_set_ne (Ne.symm hji)] at hj2
            have := hlock2 j hj2
            exact this
        · left
          refine ⟨rfl, ?_⟩
          intro pc hpc r
          rcases mem_set_or hpc with rfl | hpc2
          · simp
          · exact hnf pc hpc2 r
      · rw [hr1, hp1post]
        dsimp only
        refine ⟨?_, ?_, ?_⟩
        · intro j hj
          cases hj
        · intro j hj2
          by_cases hji : j = i
          · subst hji
            rw [getD_set_self hilen] at hj2
            rcases hj2 with h2 | h2 <;> cases h2
          · rw [getD_set_ne (Ne.symm hji)] at hj2
            have := hlock2 j hj2
            rw [hl] at this
            injection this with he
            exact absurd he.symm hji
        · right
          refine ⟨rfl, ?_, ?_⟩
          · intro pc hpc
            rcases mem_set_or hpc with rfl | hpc2
            · simp
            · exact hnm pc hpc2
          · intro pc hpc r hr2
            rcases mem_set_or hpc with rfl | hpc2
            · injection hr2 with he
              exact he.symm
            · exact hfin pc hpc2 r hr2
    · rw [if_neg hcond]
      exact ⟨hlock1, hlock2, hphase⟩
  | construct i =>
    simp only [concStep]
    by_cases hcond : s.lockBy = some i ∧
        s.tasks.getD i (TaskPc.finished none) = TaskPc.missed
    · rw [if_pos hcond]
      obtain ⟨hl, hr⟩ := hcond
      have hilen : i < s.tasks.length := lt_length_of_getD_ne (by rw [hr]; simp)
      rcases hphase with ⟨hr0, hnf⟩ | ⟨hr1, hnm, hfin⟩
      · rw [hr0, hres, hreg1]
        refine ⟨?_, ?_, ?_⟩
        · intro j hj
          cases hj
        · intro j hj2
          by_cases hji : j = i
          · subst hji
            rw [getD_set_self hilen] at hj2
            rcases hj2 with h2 | h2 <;> cases h2
          · rw [getD_set_ne (Ne.symm hji)] at hj2
            have := hlock2 j hj2
            rw [hl] at this
            injection this with he
            exact absurd he.symm hji
        · right
          refine ⟨rfl, ?_, ?_⟩
          · refine forall_mem_set (TaskPc.finished none) (by simp) ?_
            intro j hji _ hmj
            have := hlock2 j (Or.inr hmj)
            rw [hl] at this
            injection this with he
            exact hji he.symm
          · intro pc hpc r hr2
            rcases mem_set_or hpc with rfl | hpc2
            · injection hr2 with he
              exact he.symm
            · exact absurd hr2 (hnf pc hpc2 r)
      · exfalso
        have hmem := getD_mem_of_lt hilen (TaskPc.finished none)
        rw [hr] at hmem
        exact hnm _ hmem rfl
    · rw [if_neg hcond]
      exact ⟨hlock1, hlock2, hphase⟩

theorem concRun_preserves_inv {reg₀ : Registry} {ref : Str} {h : Runtime}
    (hmcp : ∀ kv ∈ reg₀.tools, kv.2.type = ToolType.MCP)
    (hpre : startsWithMcp ref = true)
    (hc0 : lookupKey ref reg₀.mcpRuntimeCache = none)
    (hres : (getToolRuntimePhase2 reg₀ ref).1 = some h)
    {s : ConcSys} (hinv : ConcInv reg₀ ref h s) (sched : List SchedAct) :
    ConcInv reg₀ ref h (concRun ref s sched) := by
  induction sched generalizing s with
  | nil => exact hinv
  | cons a rest ih => exact ih (concStep_preserves_inv hmcp hpre hc0 hres hinv a)

/-- C2: for `n ≥ 1` concurrent `get_tool_runtime(ref)` calls on the same
uncached resolvable `mcp:` reference, under every schedule that lets all
tasks finish, exactly one connection handle is constructed (the allocation
counter advances by one, the single handle sits in the cache under `ref`) and
every caller receives that same handle instance — because `self._lock` is
held from the cache check through the construct-and-insert, no two tasks can
both observe a miss. -/
theorem c2_at_most_one_connection (reg₀ : Registry) (ref : Str) (h : Runtime) (n : Nat)
    (hmcp : ∀ kv ∈ reg₀.tools, kv.2.type = ToolType.MCP)
    (hpre : startsWithMcp ref = true)
    (hc0 : lookupKey ref reg₀.mcpRuntimeCache = none)
    (hres : (getToolRuntimePhase2 reg₀ ref).1 = some h)
    (hn : 0 < n) (sched : List SchedAct)
    (hdone : ∀ pc ∈ (concRun ref (concInit reg₀ n) sched).tasks,
      ∃ r, pc = TaskPc.finished r) :
    (concRun ref (concInit reg₀ n) sched).reg =
      ⟨reg₀.tools, upsert ref h reg₀.mcpRuntimeCache, reg₀.nextId + 1⟩ ∧
    (concRun ref (concInit reg₀ n) sched).reg.nextId = reg₀.nextId + 1 ∧
    (∀ pc ∈ (concRun ref (concInit reg₀ n) sched).tasks,
      pc = TaskPc.finished (some h)) := by
  have hready : ∀ i, (List.replicate n TaskPc.ready).getD i (TaskPc.finished none) =
      TaskPc.ready ∨ (List.replicate n TaskPc.ready).getD i (TaskPc.finished none) =
      TaskPc.finished none := by
    intro i
    by_cases hi2 : i < n
    · left
      rw [List.getD_eq_get _ _ (by simpa using hi2)]
      simp [List.get_replicate]
    · right
      exact List.getD_eq_default _ _ (by simpa using Nat.le_of_not_lt hi2)
  have hinv0 : ConcInv reg₀ ref h (concInit reg₀ n) := by
    refine ⟨?_, ?_, Or.inl ⟨rfl, ?_⟩⟩
    · intro i hi
      cases hi
    · intro i hi
      exfalso
      simp only [concInit] at hi
      rcases hready i with h2 | h2 <;> rcases hi with hi | hi <;>
        rw [h2] at hi <;> cases hi
    · intro pc hpc r
      rw [List.eq_of_mem_replicate hpc]
      simp
  obtain ⟨hl1, hl2, hphase⟩ := concRun_preserves_inv hmcp hpre hc0 hres hinv0 sched
  rcases hphase with ⟨hr0, hnf⟩ | ⟨hr1, hnm, hfin⟩
  · exfalso
    have hlen : (concRun ref (concInit reg₀ n) sched).tasks.length = n := by
      rw [concRun_tasks_length]
      simp [concInit]
    have hmem := getD_mem_of_lt
      (l := (concRun ref (concInit reg₀ n) sched).tasks) (i := 0)
      (by omega) (TaskPc.finished none)
    rcases hdone _ hmem with ⟨r, hr⟩
    exact hnf _ hmem r hr
  · refine ⟨hr1, by rw [hr1], ?_⟩
    intro pc hpc
    rcases hdone pc hpc with ⟨r, rfl⟩
    rw [hfin _ hpc r rfl]

/-- Witness for C2 at a concrete input: two tasks resolving `mcp:p` under the
schedule acquire-0, (refused) acquire-1, check-0 (miss), construct-0,
acquire-1, check-1 (hit): one construction, both callers get the handle. -/
theorem c2_at_most_one_connection_witness :
    ((getToolRuntimePhase2 sampleReg "mcp:p".toList).1 =
      some (Runtime.mcpSingle (some "cmd".toList) none none 0)) ∧
    (concRun "mcp:p".toList (concInit sampleReg 2)
        [SchedAct.acquire 0, SchedAct.acquire 1, SchedAct.check 0, SchedAct.construct 0,
         SchedAct.acquire 1, SchedAct.check 1]).reg.nextId = sampleReg.nextId + 1 ∧
    (∀ pc ∈ (concRun "mcp:p".toList (concInit sampleReg 2)
        [SchedAct.acquire 0, SchedAct.acquire 1, SchedAct.check 0, SchedAct.construct 0,
         SchedAct.acquire 1, SchedAct.check 1]).tasks,
      pc = TaskPc.finished (some (Runtime.mcpSingle (some "cmd".toList) none none 0))) := by
  have happ := c2_at_most_one_connection sampleReg "mcp:p".toList
    (Runtime.mcpSingle (some "cmd".toList) none none 0) 2
    (by decide) (by decide) (by decide) (by decide) (by decide)
    [SchedAct.acquire 0, SchedAct.acquire 1, SchedAct.check 0, SchedAct.construct 0,
     SchedAct.acquire 1, SchedAct.check 1]
    (by
      intro pc hpc
      have he : (concRun "mcp:p".toList (concInit sampleReg 2)
          [SchedAct.acquire 0, SchedAct.acquire 1, SchedAct.check 0, SchedAct.construct 0,
           SchedAct.acquire 1, SchedAct.check 1]).tasks =
          [TaskPc.finished (some (Runtime.mcpSingle (some "cmd".toList) none none 0)),
           TaskPc.finished (some (Runtime.mcpSingle (some "cmd".toList) none none 0))] := by
        decide
      rw [he] at hpc
      rcases List.mem_cons.mp hpc with rfl | hpc2
      · exact ⟨_, rfl⟩
      · rcases List.mem_singleton.mp hpc2 with rfl
        exact ⟨_, rfl⟩)
  exact ⟨by decide, happ.2.1, happ.2.2⟩
